import Mathlib

/-!
Verification of the group-resolution and decision-gateway core of the
old-prague-photos viewer.

The JavaScript sources are embedded shallowly:

* `viewer/static/zoomify.js` (the `OldPragueGrouping` module):
  `normalizeId`, `buildGroupIdByXid`, `createUnionFind`, `buildMergeResolver`,
  `applyCorrections`;
* `viewer/static/group-review.js`: `normalizeGroupValue`, `ensureGroupId`;
* `viewer/static/photo-meta.js`: `pairKey`;
* `viewer/static/pomoc.js`: `pickRandom`, `pickPrev`;
* `functions/api/merges.js`: `handleGet` (latest decision per pair) and
  `handlePost` (merge-decision submission);
* `functions/api/verify.js`: `handlePost` (correction submission).

JavaScript `Map` objects are modelled as association lists (insertion order
preserved, `set` replaces in place, exactly like `Map.set`); JavaScript
numbers occurring in these code paths are modelled as rationals (all the
numeric inputs come from JSON, which has no NaN/Infinity literals), with the
one place where `Number(...)` is applied to a possibly-`null`/`undefined`
value modelled by an explicit JSON-value type; the Turnstile authorization
check (an external HTTP service) is abstracted as a boolean, as is the only
thing the handlers observe about it.
-/

/-! ### JavaScript string primitives -/

/-- The whitespace class removed by JavaScript `String.prototype.trim`
(ASCII whitespace, NBSP, BOM, line/paragraph separators).  Crucially it does
NOT contain U+001F (INFORMATION SEPARATOR ONE), the separator used by
`ensureGroupId`. -/
def jsIsWs (c : Char) : Bool :=
  c = ' ' ∨ c = Char.ofNat 9 ∨ c = Char.ofNat 10 ∨ c = Char.ofNat 11 ∨
  c = Char.ofNat 12 ∨ c = Char.ofNat 13 ∨ c = Char.ofNat 160 ∨
  c = Char.ofNat 65279 ∨ c = Char.ofNat 8232 ∨ c = Char.ofNat 8233

/-- `String.prototype.trim` on a list of characters: drop whitespace from
both ends. -/
def jsTrimList (l : List Char) : List Char :=
  ((l.dropWhile jsIsWs).reverse.dropWhile jsIsWs).reverse

/-- JavaScript `s.trim()`. -/
def jsTrim (s : String) : String :=
  String.mk (jsTrimList s.toList)

/-- `normalizeId` from `zoomify.js`: `String(value || "").trim()` (the
`|| ""` default only matters for `null`/`undefined` inputs, which we model
as `""`). -/
def normalizeId (value : String) : String := jsTrim value

/-- `normalizeGroupValue` from `group-review.js`: same normalization. -/
def normalizeGroupValue (value : String) : String := jsTrim value

/-- JavaScript `s.toLowerCase()` restricted to the per-character mapping
(the verdict strings compared in the handlers are ASCII). -/
def jsLower (s : String) : String :=
  String.mk (s.toList.map Char.toLower)

/-- JavaScript `a || b` on strings (`""` is the only falsy string). -/
def jsOrS (a b : String) : String := if a = "" then b else a

/-! ### Association lists standing in for JavaScript `Map` -/

/-- `Map.prototype.get` (first matching key; keys are kept duplicate-free by
`insertA`). -/
def lookupA {β : Type} : List (String × β) → String → Option β
  | [], _ => none
  | e :: t, k => if e.1 = k then some e.2 else lookupA t k

/-- `Map.prototype.set`: replace in place if the key exists, append
otherwise (JavaScript `Map` keeps the original insertion position on
overwrite). -/
def insertA {β : Type} : List (String × β) → String → β → List (String × β)
  | [], k, v => [(k, v)]
  | e :: t, k, v => if e.1 = k then (k, v) :: t else e :: insertA t k v

/-- The keys of an association list. -/
def keysA {β : Type} (m : List (String × β)) : List String := m.map Prod.fst

/-! ### The union-find resolver (`createUnionFind` / `buildMergeResolver`,
`zoomify.js` lines 243–286) -/

/-- The `parent` map of `createUnionFind`. -/
abbrev UFMap := List (String × String)

/-- The recursive body of `find` (path compression included), with explicit
fuel standing in for the JavaScript call stack:

```js
const find = (id) => {
  if (!id) return "";
  if (!parent.has(id)) parent.set(id, id);
  const current = parent.get(id);
  if (current === id) return id;
  const root = find(current);
  parent.set(id, root);
  return root;
};
```

The `!id` early return lives in the wrapper `ufFind`.  Fuel exhaustion can
not occur on any map built by this module (proved below via `measureLt`). -/
def ufFindAux : Nat → UFMap → String → String × UFMap
  | 0, m, id => (id, m)
  | f + 1, m, id =>
    match lookupA m id with
    | none => (id, insertA m id id)
    | some current =>
      if current = id then (id, m)
      else
        let r := ufFindAux f m current
        (r.1, insertA r.2 id r.1)

/-- `find` of `createUnionFind`; the result is the root and the
possibly-compressed map. -/
def ufFind (m : UFMap) (id : String) : String × UFMap :=
  if id = "" then ("", m) else ufFindAux (m.length + 1) m id

/-- `union` of `createUnionFind`:

```js
const union = (a, b) => {
  if (!a || !b) return;
  const rootA = find(a);
  const rootB = find(b);
  if (rootA === rootB) return;
  const winner = rootA < rootB ? rootA : rootB;
  const loser = winner === rootA ? rootB : rootA;
  parent.set(loser, winner);
};
``` -/
def ufUnion (m : UFMap) (a b : String) : UFMap :=
  if a = "" ∨ b = "" then m
  else
    let fa := ufFind m a
    let fb := ufFind fa.2 b
    if fa.1 = fb.1 then fb.2
    else
      let winner := if fa.1 < fb.1 then fa.1 else fb.1
      let loser := if winner = fa.1 then fb.1 else fa.1
      insertA fb.2 loser winner

/-- The initial `parent` map built by `createUnionFind(groupIds)`:
`groupIds.forEach((id) => { if (id) parent.set(id, id); })`. -/
def initUF (groupIds : List String) : UFMap :=
  groupIds.foldl (fun m id => if id = "" then m else insertA m id id) []

/-- One decision item as served by `GET /api/merges` and consumed by
`buildMergeResolver`. -/
structure MergeItem where
  group_id_a : String
  group_id_b : String
  verdict : String
  deriving DecidableEq, Repr

/-- The decision loop of `buildMergeResolver`:

```js
(decisions || []).forEach((item) => {
  if (!item || item.verdict !== "same") return;
  const a = normalizeId(item.group_id_a);
  const b = normalizeId(item.group_id_b);
  if (!a || !b || a === b) return;
  unionFind.union(a, b);
});
``` -/
def decisionStep (m : UFMap) (item : MergeItem) : UFMap :=
  if item.verdict ≠ "same" then m
  else
    let a := normalizeId item.group_id_a
    let b := normalizeId item.group_id_b
    if a = "" ∨ b = "" ∨ a = b then m else ufUnion m a b

/-- Folding the whole decision list. -/
def foldDecisions (m : UFMap) (decisions : List MergeItem) : UFMap :=
  decisions.foldl decisionStep m

/-- The union-find state built by `buildMergeResolver(groupIds, decisions)`. -/
def buildMap (groupIds : List String) (decisions : List MergeItem) : UFMap :=
  foldDecisions (initUF groupIds) decisions

/-- `buildMergeResolver(groupIds, decisions)` as the resolver function it
returns:

```js
return (groupId) => {
  const id = normalizeId(groupId);
  return id ? unionFind.find(id) : "";
};
```

In JavaScript the closure keeps mutating the shared `parent` map (lazy
registration and path compression); both mutations are invisible in the
sequence of returned roots (proved below: `ufFind` preserves every root), so
the pure reading — each call resolves against the fully built map — returns
the same string on every call. -/
def buildMergeResolver (groupIds : List String) (decisions : List MergeItem)
    (groupId : String) : String :=
  let id := normalizeId groupId
  if id = "" then "" else (ufFind (buildMap groupIds decisions) id).1

/-! ### The merge-decision gateway (`functions/api/merges.js`) -/

/-- One stored row of the `merge_decisions` table (`id` is the
autoincrement primary key, so append order = id order). -/
structure MergeRow where
  id : Nat
  group_id_a : String
  group_id_b : String
  verdict : String
  deriving DecidableEq, Repr

/-- `handleGet` of `merges.js`: the SQL

```sql
WITH latest AS (
  SELECT group_id_a, group_id_b, MAX(id) AS any_id
  FROM merge_decisions GROUP BY group_id_a, group_id_b)
SELECT m.group_id_a, m.group_id_b, m.verdict, … FROM latest l
JOIN merge_decisions m ON m.id = l.any_id
```

keeps, for every stored `(group_id_a, group_id_b)` pair, only the row with
the maximal `id` — the latest decision for that pair.  The SQL output order
is unspecified; we keep table order (the claims settled against this
definition do not depend on the order of the returned items). -/
def mergesHandleGet (rows : List MergeRow) : List MergeItem :=
  (rows.filter fun r =>
    rows.all fun s =>
      !(s.group_id_a = r.group_id_a ∧ s.group_id_b = r.group_id_b : Bool) ||
        decide (s.id ≤ r.id)).map
    fun r => ⟨r.group_id_a, r.group_id_b, r.verdict⟩

/-- The JSON body of `POST /api/merges` (fields absent from the JSON are
modelled as `""`, matching `String(body?.x || "")`; the Turnstile token is
part of the abstracted authorization check). -/
structure MergeBody where
  group_id_a : String
  group_id_b : String
  verdict : String
  deriving DecidableEq, Repr

/-- The outcome of a gateway POST: either a rejection with its JSON
`detail` message, or exactly one row appended to the log. -/
inductive MergePostOutcome where
  | error (detail : String)
  | inserted (group_id_a group_id_b verdict : String)
  deriving DecidableEq, Repr

/-- `handlePost` of `merges.js`.  `body?` is `none` when `request.json()`
throws (malformed JSON).  `authorized` abstracts
`hasValidSession(request, env) || verifyTurnstile(...)` succeeding; the
check sits between verdict validation and the canonicalizing swap, exactly
as in the source.  The `INSERT` is represented by the `inserted` outcome —
it is the only branch that reaches the database. -/
def mergesHandlePost (body? : Option MergeBody) (authorized : Bool) :
    MergePostOutcome :=
  match body? with
  | none => .error "Neplatný JSON"
  | some body =>
    let groupIdA := jsTrim body.group_id_a
    let groupIdB := jsTrim body.group_id_b
    if groupIdA = "" ∨ groupIdB = "" then .error "Chybí skupina"
    else if groupIdA = groupIdB then .error "Nelze sloučit stejnou skupinu"
    else
      let verdictRaw := jsLower (jsTrim body.verdict)
      let verdict := if verdictRaw = "" then "same" else verdictRaw
      if verdict ≠ "same" ∧ verdict ≠ "different" then
        .error "Neplatný typ rozhodnutí"
      else if ¬ authorized then .error "Ověření selhalo"
      else if groupIdB < groupIdA then .inserted groupIdB groupIdA verdict
      else .inserted groupIdA groupIdB verdict

/-- `pairKey` from `photo-meta.js`, the canonical unordered-pair key used by
the decision-exclusion lookup:

```js
function pairKey(a, b) {
  if (!a || !b) return "";
  return a < b ? `${a}::${b}` : `${b}::${a}`;
}
``` -/
def pairKey (a b : String) : String :=
  if a = "" ∨ b = "" then ""
  else if a < b then a ++ "::" ++ b else b ++ "::" ++ a

/-! ### The correction gateway (`functions/api/verify.js`) -/

/-- The JSON body of `POST /api/corrections`.  `lat`/`lon` are
`none` for JSON `null` or an absent field (the source collapses the two via
`body?.lat ?? null`) and `some q` for a JSON number (JSON cannot encode
NaN/Infinity, so a rational carries the full information the handler
uses).  String-valued fields absent from the JSON are modelled as `""`. -/
structure CorrectionBody where
  xid : String
  lat : Option ℚ
  lon : Option ℚ
  verdict : String
  email : String
  message : String
  deriving DecidableEq, Repr

/-- The row appended to the `corrections` table on success. -/
structure CorrRow where
  xid : String
  lat : Option ℚ
  lon : Option ℚ
  has_coordinates : Bool
  verdict : String
  message : String
  deriving DecidableEq, Repr

/-- The outcome of `POST /api/corrections`. -/
inductive CorrPostOutcome where
  | error (detail : String)
  | inserted (row : CorrRow)
  deriving DecidableEq, Repr

/-- The `EMAIL_PATTERN` regex `/^[^@\s]+@[^@\s]+\.[^@\s]+$/`: one `@`, no
whitespace anywhere, a nonempty local part, and a `.` in the domain part
with at least one character on each side. -/
def emailMatches (s : String) : Bool :=
  let cs := s.toList
  let notAtWs : Char → Bool := fun c => !(c = '@' : Bool) && !jsIsWs c
  match cs.splitOn '@' with
  | [localPart, domain] =>
    localPart ≠ [] && localPart.all notAtWs && domain.all notAtWs &&
      ((List.range domain.length).any fun i =>
        decide (domain.getD i ' ' = '.') && decide (1 ≤ i) &&
          decide (i + 1 < domain.length))
  | _ => false

/-- `handlePost` of `verify.js` (the corrections gateway).  `body?` is
`none` for malformed JSON; `authorized` abstracts `verifyTurnstile`
succeeding (it runs after all validation, immediately before the
`INSERT`). -/
def correctionsHandlePost (body? : Option CorrectionBody)
    (authorized : Bool) : CorrPostOutcome :=
  match body? with
  | none => .error "Neplatný JSON"
  | some body =>
    let xid := jsTrim body.xid
    if xid = "" then .error "Chybí xid"
    else
      let hasCoordinates := body.lat.isSome && body.lon.isSome
      let verdictRaw := jsLower (jsTrim body.verdict)
      let verdict :=
        if verdictRaw = "" then (if hasCoordinates then "wrong" else "flag")
        else verdictRaw
      if ¬ (verdict = "ok" ∨ verdict = "wrong" ∨ verdict = "flag") then
        .error "Neplatný typ hlášení"
      else if body.lat.isSome ≠ body.lon.isSome then .error "Neplatná poloha"
      else if verdict = "ok" ∧ hasCoordinates then
        .error "Potvrzení OK nesmí obsahovat polohu"
      else if verdict = "wrong" ∧ ¬ hasCoordinates then
        .error "Pro opravu je nutná poloha"
      else if hasCoordinates ∧
          ((∃ la, body.lat = some la ∧ (la < -90 ∨ 90 < la)) ∨
           (∃ lo, body.lon = some lo ∧ (lo < -180 ∨ 180 < lo))) then
        .error "Neplatná poloha"
      else
        let email := jsTrim body.email
        if email ≠ "" ∧ ¬ emailMatches email then .error "Neplatný e-mail"
        else if ¬ authorized then .error "Ověření selhalo"
        else
          .inserted
            { xid := xid
              lat := if hasCoordinates then body.lat else none
              lon := if hasCoordinates then body.lon else none
              has_coordinates := hasCoordinates
              verdict := verdict
              message :=
                jsTrim (jsOrS body.message "Nahlášena špatná poloha.") }

/-! ### The correction projector and grouping helpers (`zoomify.js`,
`group-review.js`) -/

/-- A JSON value in a `lat`/`lon` position of a served correction item:
a number, JSON `null` (the D1 rows for records whose corrections never
carried coordinates), or an absent property. -/
inductive CoordVal where
  | cnum (q : ℚ)
  | cnull
  | cundef
  deriving DecidableEq, Repr

/-- JavaScript `Number(v)` followed by the `Number.isFinite` test:
`some q` for a finite result, `none` for NaN.  `Number(null)` is `0`,
`Number(undefined)` is NaN. -/
def numOf : CoordVal → Option ℚ
  | .cnum q => some q
  | .cnull => some 0
  | .cundef => none

/-- One correction item as consumed by `applyCorrections` /
`buildDoneGroupSet`. -/
structure CorrItem where
  xid : String
  group_id : String
  lat : CoordVal
  lon : CoordVal
  deriving DecidableEq, Repr

/-- A feature of `photos.geojson` flattened to the properties this module
reads: `properties.id`, `properties.group_id`, `properties.description`,
`properties.author`, `properties.date_label`, `geometry.coordinates`
(`[lon, lat]`) and the `properties.corrected` tag written by
`applyCorrections`.  Absent string properties are modelled as `""`. -/
structure Feature where
  id : String
  group_id : String
  description : String
  author : String
  date_label : String
  coordinates : List ℚ
  corrected : Option (ℚ × ℚ)
  deriving DecidableEq, Repr

/-- `buildGroupIdByXid(features)` (`zoomify.js` lines 227–241): the
`xid → groupId` map plus the set of group ids (a JavaScript `Set`, modelled
as its insertion-ordered list of distinct elements). -/
def buildGroupIdByXid (features : List Feature) :
    List (String × String) × List String :=
  features.foldl
    (fun acc feature =>
      let xid := normalizeId feature.id
      let groupId := jsOrS (normalizeId feature.group_id) xid
      if xid = "" ∨ groupId = "" then acc
      else
        (insertA acc.1 xid groupId,
         if groupId ∈ acc.2 then acc.2 else acc.2 ++ [groupId]))
    ([], [])

/-- The base group a correction item is filed under in `applyCorrections`:
`normalizeId(item.group_id) || groupIdByXid.get(xid) || xid` (a `Map.get`
miss is `undefined`, hence falsy, hence modelled by the `""` default). -/
def corrBaseGroup (groupIdByXid : List (String × String))
    (item : CorrItem) : String :=
  let xid := normalizeId item.xid
  jsOrS (normalizeId item.group_id) (jsOrS ((lookupA groupIdByXid xid).getD "") xid)

/-- The `correctionByGroup` map built by the first loop of
`applyCorrections`: every item with a nonempty base group is stored under
its resolved group id, later items overwriting earlier ones. -/
def correctionByGroup (corrections : List CorrItem)
    (groupIdByXid : List (String × String)) (resolveGroupId : String → String) :
    List (String × CorrItem) :=
  corrections.foldl
    (fun mp item =>
      let baseGroup := corrBaseGroup groupIdByXid item
      if baseGroup = "" then mp
      else insertA mp (resolveGroupId baseGroup) item)
    []

/-- The base group of a feature in `applyCorrections` / `buildGroups`:
`normalizeId(props.group_id) || normalizeId(props.id)`. -/
def featureBaseGroup (f : Feature) : String :=
  jsOrS (normalizeId f.group_id) (normalizeId f.id)

/-- `applyCorrections(features, corrections, groupIdByXid, resolveGroupId)`
(`zoomify.js` lines 288–314).  The source mutates each feature in place and
returns `correctionByGroup`; we return the updated feature list together
with the map.

```js
(features || []).forEach((feature) => {
  const props = feature?.properties || {};
  const baseGroup = normalizeId(props.group_id) || normalizeId(props.id);
  const groupId = resolveGroupId ? resolveGroupId(baseGroup) : baseGroup;
  if (!groupId || !correctionByGroup.has(groupId)) return;
  const correction = correctionByGroup.get(groupId);
  const lat = Number(correction.lat);
  const lon = Number(correction.lon);
  if (!Number.isFinite(lat) || !Number.isFinite(lon)) return;
  feature.geometry.coordinates = [lon, lat];
  props.corrected = { lat, lon };
});
``` -/
def applyCorrections (features : List Feature) (corrections : List CorrItem)
    (groupIdByXid : List (String × String)) (resolveGroupId : String → String) :
    List Feature × List (String × CorrItem) :=
  let byGroup := correctionByGroup corrections groupIdByXid resolveGroupId
  (features.map fun feature =>
    let groupId := resolveGroupId (featureBaseGroup feature)
    if groupId = "" then feature
    else
      match lookupA byGroup groupId with
      | none => feature
      | some correction =>
        match numOf correction.lat, numOf correction.lon with
        | some lat, some lon =>
          { feature with coordinates := [lon, lat], corrected := some (lat, lon) }
        | _, _ => feature,
   byGroup)

/-- `ensureGroupId(feature)` (`group-review.js` lines 38–50):

```js
if (feature.properties.group_id) return;
const parts = [
  normalizeGroupValue(feature.properties.description),
  normalizeGroupValue(feature.properties.author),
  normalizeGroupValue(feature.properties.date_label),
];
const key = parts.join("\x1f").trim();
if (key) feature.properties.group_id = key;
```

`parts.join("\x1f")` is unrolled for the fixed three-element array. -/
def ensureGroupId (feature : Feature) : Feature :=
  if feature.group_id ≠ "" then feature
  else
    let key := jsTrim
      (normalizeGroupValue feature.description ++ "\x1f" ++
       normalizeGroupValue feature.author ++ "\x1f" ++
       normalizeGroupValue feature.date_label)
    if key ≠ "" then { feature with group_id := key } else feature

/-! ### The review-candidate iteration (`pomoc.js` lines 425–454) -/

/-- The slice of the `pomoc.js` `state` object read and written by
`pickRandom` / `pickPrev`.  `α` is the type of the served items (group
objects in the source). -/
structure ReviewState (α : Type) where
  groups : List α
  remaining : List α
  history : List α
  currentGroup : Option α
  deriving DecidableEq, Repr

/-- `pickRandom` (`pomoc.js` lines 425–442); `idx` is the value of
`Math.floor(Math.random() * state.remaining.length)`, passed in as the
random oracle.  The fire-and-forget `refreshRemainingCloud()` call is an
asynchronous network effect that resolves after the synchronous body and is
outside this embedding.

```js
if (!state.remaining.length) state.remaining = [...state.groups];
const idx = Math.floor(Math.random() * state.remaining.length);
const group = state.remaining.splice(idx, 1)[0];
if (state.currentGroup) state.history.push(state.currentGroup);
showGroup(group);  // sets state.currentGroup = group
``` -/
def pickRandom {α : Type} (s : ReviewState α) (idx : Nat) : ReviewState α :=
  let pool := if s.remaining.isEmpty then s.groups else s.remaining
  { s with
    remaining := pool.eraseIdx idx
    history := s.history ++ s.currentGroup.toList
    currentGroup := pool.get? idx }

/-- `pickPrev` (`pomoc.js` lines 444–454):

```js
if (state.history.length === 0) return;
const prevGroup = state.history.pop();
if (state.currentGroup) state.remaining.push(state.currentGroup);
showGroup(prevGroup);
``` -/
def pickPrev {α : Type} (s : ReviewState α) : ReviewState α :=
  if s.history.isEmpty then s
  else
    { s with
      history := s.history.dropLast
      remaining := s.remaining ++ s.currentGroup.toList
      currentGroup := s.history.getLast? }

/-! ### Association-list lemmas -/

theorem lookupA_insertA_self {β : Type} (m : List (String × β)) (k : String)
    (v : β) : lookupA (insertA m k v) k = some v := by
  induction m with
  | nil => simp [insertA, lookupA]
  | cons e t ih =>
    by_cases h : e.1 = k <;> simp [insertA, lookupA, h, ih]

theorem lookupA_insertA_ne {β : Type} (m : List (String × β)) {k j : String}
    (v : β) (h : j ≠ k) : lookupA (insertA m k v) j = lookupA m j := by
  have h' : ¬ (k = j) := fun hc => h hc.symm
  induction m with
  | nil => simp [insertA, lookupA, h']
  | cons e t ih =>
    by_cases he : e.1 = k
    · subst he
      simp [insertA, lookupA, h']
    · by_cases hej : e.1 = j <;> simp [insertA, lookupA, he, hej, h, h', ih]

theorem keysA_insertA_of_mem {β : Type} : ∀ (m : List (String × β))
    (k : String) (v : β), k ∈ keysA m → keysA (insertA m k v) = keysA m
  | [], k, v, h => by simp [keysA] at h
  | e :: t, k, v, h => by
    by_cases he : e.1 = k
    · simp [insertA, he, keysA]
    · have h' : k ∈ keysA t := by
        simp only [keysA, List.map_cons, List.mem_cons] at h
        rcases h with h | h
        · exact absurd h.symm he
        · exact h
      have ih := keysA_insertA_of_mem t k v h'
      simp only [keysA] at ih
      simp only [insertA, if_neg he, keysA, List.map_cons]
      rw [ih]

theorem keysA_insertA_of_not_mem {β : Type} : ∀ (m : List (String × β))
    (k : String) (v : β), k ∉ keysA m → keysA (insertA m k v) = keysA m ++ [k]
  | [], k, v, _ => by simp [insertA, keysA]
  | e :: t, k, v, h => by
    have he : e.1 ≠ k := by
      intro hc
      exact h (by simp [keysA, hc])
    have h' : k ∉ keysA t := by
      intro hc
      exact h (by simp only [keysA, List.map_cons, List.mem_cons]; exact Or.inr hc)
    have ih := keysA_insertA_of_not_mem t k v h'
    simp only [keysA] at ih
    simp only [insertA, if_neg he, keysA, List.map_cons]
    rw [ih]
    rfl

theorem keysA_nodup_insertA {β : Type} {m : List (String × β)} {k : String}
    (v : β) (h : (keysA m).Nodup) : (keysA (insertA m k v)).Nodup := by
  by_cases hm : k ∈ keysA m
  · rw [keysA_insertA_of_mem m k v hm]; exact h
  · rw [keysA_insertA_of_not_mem m k v hm]
    simpa using List.Nodup.append h (by simp) (by simpa using hm)

theorem length_insertA_of_mem {β : Type} {m : List (String × β)} {k : String}
    (v : β) (h : k ∈ keysA m) : (insertA m k v).length = m.length := by
  have := keysA_insertA_of_mem m k v h
  have h1 : (keysA (insertA m k v)).length = (keysA m).length := by rw [this]
  simpa [keysA] using h1

theorem length_insertA_le {β : Type} (m : List (String × β)) (k : String)
    (v : β) : (insertA m k v).length ≤ m.length + 1 := by
  induction m with
  | nil => simp [insertA]
  | cons e t ih =>
    by_cases he : e.1 = k <;> simp [insertA, he] <;> omega

theorem mem_keysA_iff_lookupA {β : Type} (m : List (String × β)) (k : String) :
    k ∈ keysA m ↔ (lookupA m k).isSome := by
  induction m with
  | nil => simp [keysA, lookupA]
  | cons e t ih =>
    simp only [keysA, List.map_cons, List.mem_cons, lookupA]
    simp only [keysA] at ih
    by_cases he : e.1 = k
    · simp [he]
    · have hke : ¬ (k = e.1) := fun hc => he hc.symm
      simp [he, hke, ih]

theorem lookupA_mem {β : Type} {m : List (String × β)} {k : String} {v : β}
    (h : lookupA m k = some v) : (k, v) ∈ m := by
  induction m with
  | nil => simp [lookupA] at h
  | cons e t ih =>
    by_cases he : e.1 = k
    · simp only [lookupA, if_pos he] at h
      have : (k, v) = e := by
        rw [← he, ← (Option.some.injEq _ _).mp h]
      rw [this]
      exact List.mem_cons_self e t
    · simp only [lookupA, if_neg he] at h
      exact List.mem_cons_of_mem _ (ih h)

theorem lookupA_eq_none_of_not_mem {β : Type} {m : List (String × β)}
    {k : String} (h : k ∉ keysA m) : lookupA m k = none := by
  have := (mem_keysA_iff_lookupA m k).not.mp h
  cases hl : lookupA m k with
  | none => rfl
  | some v => rw [hl] at this; simp at this

/-! ### Well-formed union-find maps -/

/-- The invariant every `parent` map produced by `createUnionFind` /
`buildMergeResolver` satisfies: keys are distinct and nonempty, every parent
is lexicographically `≤` its child, and every parent is itself a key. -/
structure WFM (m : UFMap) : Prop where
  nodup : (keysA m).Nodup
  kne : ∀ e ∈ m, e.1 ≠ ""
  vle : ∀ e ∈ m, e.2 ≤ e.1
  vmem : ∀ e ∈ m, e.2 ∈ keysA m

theorem WFM.lookup_le {m : UFMap} (w : WFM m) {k v : String}
    (h : lookupA m k = some v) : v ≤ k :=
  w.vle (k, v) (lookupA_mem h)

theorem WFM.lookup_mem {m : UFMap} (w : WFM m) {k v : String}
    (h : lookupA m k = some v) : v ∈ keysA m :=
  w.vmem (k, v) (lookupA_mem h)

theorem WFM.lookup_key_mem {m : UFMap} {k v : String}
    (h : lookupA m k = some v) : k ∈ keysA m := by
  rw [mem_keysA_iff_lookupA, h]
  rfl

theorem WFM.key_ne {m : UFMap} (w : WFM m) {k : String} (h : k ∈ keysA m) :
    k ≠ "" := by
  simp only [keysA, List.mem_map] at h
  obtain ⟨e, he, hk⟩ := h
  exact hk ▸ w.kne e he

/-- Every entry of `insertA m k v` is the new entry or an old one. -/
theorem mem_insertA {β : Type} : ∀ (m : List (String × β)) (k : String)
    (v : β) (e : String × β), e ∈ insertA m k v → e = (k, v) ∨ e ∈ m
  | [], k, v, e, he => by simpa [insertA] using he
  | e' :: t, k, v, e, he => by
    by_cases h' : e'.1 = k
    · simp only [insertA, if_pos h', List.mem_cons] at he
      rcases he with he | he
      · left; exact he
      · right; exact List.mem_cons_of_mem _ he
    · simp only [insertA, if_neg h', List.mem_cons] at he
      rcases he with he | he
      · right; simp [he]
      · rcases mem_insertA t k v e he with h1 | h1
        · left; exact h1
        · right; exact List.mem_cons_of_mem _ h1

/-- `WFM` survives an insert whose key is nonempty and whose value is a key
of the extended map, `≤` the inserted key. -/
theorem WFM.insert {m : UFMap} (w : WFM m) {k v : String} (hk : k ≠ "")
    (hle : v ≤ k) (hv : v ∈ keysA (insertA m k v)) : WFM (insertA m k v) := by
  have hmem : ∀ e ∈ insertA m k v, e = (k, v) ∨ e ∈ m :=
    fun e he => mem_insertA m k v e he
  have hkeys : ∀ j, j ∈ keysA m → j ∈ keysA (insertA m k v) := by
    intro j hj
    by_cases hkm : k ∈ keysA m
    · rwa [keysA_insertA_of_mem m k v hkm]
    · rw [keysA_insertA_of_not_mem m k v hkm]; simp [hj]
  refine ⟨keysA_nodup_insertA v w.nodup, ?_, ?_, ?_⟩
  · intro e he
    rcases hmem e he with h | h
    · rw [h]; exact hk
    · exact w.kne e h
  · intro e he
    rcases hmem e he with h | h
    · rw [h]; exact hle
    · exact w.vle e h
  · intro e he
    rcases hmem e he with h | h
    · rw [h]; exact hv
    · exact hkeys _ (w.vmem e h)

/-! ### Termination measure and the fuel-free root of a key -/

/-- The number of keys lexicographically below `k`: the termination measure
of the `find` chain (parents strictly decrease along a chain of a
well-formed map). -/
def measureLt (m : UFMap) (k : String) : Nat :=
  ((keysA m).filter fun j => decide (j < k)).length

theorem filter_length_mono {α : Type} {p q : α → Bool}
    (h : ∀ a, p a = true → q a = true) :
    ∀ l : List α, (l.filter p).length ≤ (l.filter q).length := by
  intro l
  induction l with
  | nil => simp
  | cons a t ih =>
    by_cases hp : p a
    · have hq := h a hp
      simp [List.filter_cons, hp, hq]
      omega
    · have hp' : p a = false := by simpa using hp
      by_cases hq : q a <;>
        simp [List.filter_cons, hp', hq] <;> omega

theorem filter_lt_strict {l : List String} {v k : String} (hv : v ∈ l)
    (hvk : v < k) :
    (l.filter fun j => decide (j < v)).length <
      (l.filter fun j => decide (j < k)).length := by
  induction l with
  | nil => simp at hv
  | cons a t ih =>
    have hmono := filter_length_mono
      (p := fun j => decide (j < v)) (q := fun j => decide (j < k))
      (fun x hx => by
        rw [decide_eq_true_eq] at hx ⊢
        exact lt_trans hx hvk) t
    rcases List.mem_cons.mp hv with rfl | hvt
    · rw [List.filter_cons, List.filter_cons,
        if_neg (by rw [decide_eq_true_eq]; exact lt_irrefl v),
        if_pos (by rw [decide_eq_true_eq]; exact hvk), List.length_cons]
      omega
    · have ht := ih hvt
      rw [List.filter_cons, List.filter_cons]
      by_cases ha : a < v
      · rw [if_pos (by rw [decide_eq_true_eq]; exact ha),
          if_pos (by rw [decide_eq_true_eq]; exact lt_trans ha hvk),
          List.length_cons, List.length_cons]
        omega
      · rw [if_neg (by rw [decide_eq_true_eq]; exact ha)]
        by_cases hak : a < k
        · rw [if_pos (by rw [decide_eq_true_eq]; exact hak), List.length_cons]
          omega
        · rw [if_neg (by rw [decide_eq_true_eq]; exact hak)]
          exact ht

theorem measureLt_le_length (m : UFMap) (k : String) :
    measureLt m k ≤ m.length := by
  have h1 : ((keysA m).filter fun j => decide (j < k)).length ≤ (keysA m).length :=
    List.length_filter_le _ _
  have h2 : (keysA m).length = m.length := by simp [keysA]
  rw [measureLt]
  omega

theorem measureLt_parent_lt {m : UFMap} (w : WFM m) {k v : String}
    (h : lookupA m k = some v) (hne : v ≠ k) :
    measureLt m v < measureLt m k := by
  have hle : v ≤ k := w.lookup_le h
  have hlt : v < k := lt_of_le_of_ne hle hne
  exact filter_lt_strict (w.lookup_mem h) hlt

/-- The root of `k` in `m`, computed without path compression; equal to the
first component of `ufFindAux` on well-formed maps (proved below). -/
def rootIter : Nat → UFMap → String → String
  | 0, _, k => k
  | f + 1, m, k =>
    match lookupA m k with
    | none => k
    | some v => if v = k then k else rootIter f m v

/-- The root of `k` with the canonical sufficient fuel. -/
def rootOf (m : UFMap) (k : String) : String := rootIter (m.length + 1) m k

theorem rootIter_congr {m : UFMap} (w : WFM m) :
    ∀ (n : Nat) (k : String) (f₁ f₂ : Nat), measureLt m k ≤ n →
      measureLt m k < f₁ → measureLt m k < f₂ →
      rootIter f₁ m k = rootIter f₂ m k := by
  intro n
  induction n using Nat.strong_induction_on with
  | _ n ih =>
    intro k f₁ f₂ hn h1 h2
    obtain ⟨f₁', rfl⟩ : ∃ x, f₁ = x + 1 := ⟨f₁ - 1, by omega⟩
    obtain ⟨f₂', rfl⟩ : ∃ x, f₂ = x + 1 := ⟨f₂ - 1, by omega⟩
    simp only [rootIter]
    cases hl : lookupA m k with
    | none => rfl
    | some v =>
      by_cases hv : v = k
      · simp [hv]
      · simp only [if_neg hv]
        have hlt := measureLt_parent_lt w hl hv
        exact ih (measureLt m v) (by omega) v f₁' f₂' le_rfl (by omega) (by omega)

theorem rootIter_eq_rootOf {m : UFMap} (w : WFM m) {k : String} {f : Nat}
    (hf : measureLt m k < f) : rootIter f m k = rootOf m k :=
  rootIter_congr w (measureLt m k) k f (m.length + 1) le_rfl hf
    (Nat.lt_succ_of_le (measureLt_le_length m k))

theorem rootOf_not_mem {m : UFMap} {k : String} (h : k ∉ keysA m) :
    rootOf m k = k := by
  show rootIter (m.length + 1) m k = k
  simp [rootIter, lookupA_eq_none_of_not_mem h]

theorem rootOf_lookup_self {m : UFMap} {k : String}
    (h : lookupA m k = some k) : rootOf m k = k := by
  show rootIter (m.length + 1) m k = k
  simp [rootIter, h]

theorem rootOf_step {m : UFMap} (w : WFM m) {k v : String}
    (h : lookupA m k = some v) : rootOf m k = rootOf m v := by
  by_cases hv : v = k
  · rw [hv]
  · show rootIter (m.length + 1) m k = rootOf m v
    simp only [rootIter, h, if_neg hv]
    exact rootIter_eq_rootOf w
      (lt_of_lt_of_le (measureLt_parent_lt w h hv) (measureLt_le_length m k))

theorem lookupA_rootOf {m : UFMap} (w : WFM m) :
    ∀ (n : Nat) (k : String), measureLt m k ≤ n → k ∈ keysA m →
      lookupA m (rootOf m k) = some (rootOf m k) := by
  intro n
  induction n using Nat.strong_induction_on with
  | _ n ih =>
    intro k hn hk
    obtain ⟨v, hv⟩ : ∃ v, lookupA m k = some v := by
      have := (mem_keysA_iff_lookupA m k).mp hk
      cases hl : lookupA m k with
      | none => rw [hl] at this; simp at this
      | some v => exact ⟨v, rfl⟩
    by_cases hvk : v = k
    · rw [rootOf_lookup_self (hvk ▸ hv)]
      exact hvk ▸ hv
    · rw [rootOf_step w hv]
      have hlt := measureLt_parent_lt w hv hvk
      exact ih (measureLt m v) (by omega) v le_rfl (w.lookup_mem hv)

theorem rootOf_root {m : UFMap} (w : WFM m) {k : String} (hk : k ∈ keysA m) :
    lookupA m (rootOf m k) = some (rootOf m k) :=
  lookupA_rootOf w (measureLt m k) k le_rfl hk

theorem rootOf_mem {m : UFMap} (w : WFM m) {k : String} (hk : k ∈ keysA m) :
    rootOf m k ∈ keysA m :=
  WFM.lookup_key_mem (rootOf_root w hk)

theorem rootOf_le {m : UFMap} (w : WFM m) :
    ∀ (n : Nat) (k : String), measureLt m k ≤ n → rootOf m k ≤ k := by
  intro n
  induction n using Nat.strong_induction_on with
  | _ n ih =>
    intro k hn
    by_cases hk : k ∈ keysA m
    · obtain ⟨v, hv⟩ : ∃ v, lookupA m k = some v := by
        have := (mem_keysA_iff_lookupA m k).mp hk
        cases hl : lookupA m k with
        | none => rw [hl] at this; simp at this
        | some v => exact ⟨v, rfl⟩
      by_cases hvk : v = k
      · rw [rootOf_lookup_self (hvk ▸ hv)]
      · rw [rootOf_step w hv]
        have hlt := measureLt_parent_lt w hv hvk
        exact le_trans (ih (measureLt m v) (by omega) v le_rfl) (w.lookup_le hv)
    · rw [rootOf_not_mem hk]

theorem rootOf_idem {m : UFMap} (w : WFM m) (k : String) :
    rootOf m (rootOf m k) = rootOf m k := by
  by_cases hk : k ∈ keysA m
  · exact rootOf_lookup_self (rootOf_root w hk)
  · rw [rootOf_not_mem hk, rootOf_not_mem hk]

theorem rootOf_ne_non_root {m : UFMap} (w : WFM m) {k c : String}
    (h : lookupA m k = some c) (hck : c ≠ k) (j : String) :
    rootOf m j ≠ k := by
  intro hc
  by_cases hj : j ∈ keysA m
  · have := rootOf_root w hj
    rw [hc, h] at this
    exact hck (by injection this)
  · rw [rootOf_not_mem hj] at hc
    subst hc
    exact hj (WFM.lookup_key_mem h)

/-! ### How inserts transform roots -/

theorem rootOf_insert_fresh {m : UFMap} (w : WFM m) {k : String}
    (hk : k ∉ keysA m) (hne : k ≠ "") :
    WFM (insertA m k k) ∧ ∀ j, rootOf (insertA m k k) j = rootOf m j := by
  have hkeys := keysA_insertA_of_not_mem m k k hk
  have hv : k ∈ keysA (insertA m k k) := by rw [hkeys]; simp
  have w' : WFM (insertA m k k) := w.insert hne le_rfl hv
  refine ⟨w', ?_⟩
  have main : ∀ (n : Nat) (j : String), measureLt m j ≤ n →
      rootOf (insertA m k k) j = rootOf m j := by
    intro n
    induction n using Nat.strong_induction_on with
    | _ n ih =>
      intro j hn
      by_cases hjk : j = k
      · subst hjk
        rw [rootOf_lookup_self (lookupA_insertA_self m j j), rootOf_not_mem hk]
      · cases hl : lookupA m j with
        | none =>
          have hj : j ∉ keysA m := by
            rw [mem_keysA_iff_lookupA, hl]; simp
          have hj' : j ∉ keysA (insertA m k k) := by
            rw [hkeys]; simp [hj, hjk]
          rw [rootOf_not_mem hj', rootOf_not_mem hj]
        | some v =>
          have hl' : lookupA (insertA m k k) j = some v := by
            rw [lookupA_insertA_ne m k hjk, hl]
          by_cases hvj : v = j
          · subst hvj
            rw [rootOf_lookup_self hl', rootOf_lookup_self hl]
          · rw [rootOf_step w' hl', rootOf_step w hl]
            have hlt := measureLt_parent_lt w hl hvj
            exact ih (measureLt m v) (by omega) v le_rfl

  intro j
  exact main (measureLt m j) j le_rfl

/-- The central insert lemma: linking an existing key `k` to a root `r`
below it rewrites every root that was `k` to `r` and leaves all other roots
unchanged.  It covers both the path-compression write (`rootOf m k = r`, so
no root equals `k`) and the `union` link (`k` is a root). -/
theorem rootOf_insertA {m : UFMap} (w : WFM m) {k r : String}
    (hk : k ∈ keysA m) (hr : lookupA m r = some r) (hrk : r < k)
    (hroot : rootOf m k = k ∨ rootOf m k = r) :
    WFM (insertA m k r) ∧
      ∀ j, rootOf (insertA m k r) j =
        if rootOf m j = k then r else rootOf m j := by
  have hkeys := keysA_insertA_of_mem m k r hk
  have hrmem : r ∈ keysA m := WFM.lookup_key_mem hr
  have hv : r ∈ keysA (insertA m k r) := by rw [hkeys]; exact hrmem
  have w' : WFM (insertA m k r) := w.insert (w.key_ne hk) (le_of_lt hrk) hv
  have hrk' : r ≠ k := ne_of_lt hrk
  refine ⟨w', ?_⟩
  have main : ∀ (n : Nat) (j : String), measureLt m j ≤ n →
      rootOf (insertA m k r) j = if rootOf m j = k then r else rootOf m j := by
    intro n
    induction n using Nat.strong_induction_on with
    | _ n ih =>
      intro j hn
      by_cases hjk : j = k
      · subst hjk
        have hlk : lookupA (insertA m j r) j = some r := lookupA_insertA_self m j r
        have hlr : lookupA (insertA m j r) r = some r := by
          rw [lookupA_insertA_ne m r hrk', hr]
        rw [rootOf_step w' hlk, rootOf_lookup_self hlr]
        rcases hroot with h | h <;> rw [h] <;> simp [Ne.symm hrk']
      · cases hl : lookupA m j with
        | none =>
          have hj : j ∉ keysA m := by
            rw [mem_keysA_iff_lookupA, hl]; simp
          have hj' : j ∉ keysA (insertA m k r) := by rw [hkeys]; exact hj
          rw [rootOf_not_mem hj', rootOf_not_mem hj]
          have : j ≠ k := hjk
          simp [this]
        | some v =>
          have hl' : lookupA (insertA m k r) j = some v := by
            rw [lookupA_insertA_ne m r hjk, hl]
          by_cases hvj : v = j
          · subst hvj
            rw [rootOf_lookup_self hl', rootOf_lookup_self hl]
            simp [hjk]
          · rw [rootOf_step w' hl', rootOf_step w hl]
            have hlt := measureLt_parent_lt w hl hvj
            exact ih (measureLt m v) (by omega) v le_rfl
  intro j
  exact main (measureLt m j) j le_rfl

/-! ### The specification of `find` -/

/-- All the facts needed about one `find` call: it returns `rootOf`, keeps
the map well-formed, registers its argument and nothing else, preserves
every root, and grows the map by at most the registered entry. -/
theorem ufFindAux_spec {m : UFMap} (w : WFM m) :
    ∀ (n : Nat) (k : String) (f : Nat), k ≠ "" → measureLt m k ≤ n →
      measureLt m k < f →
      (ufFindAux f m k).1 = rootOf m k ∧
      WFM (ufFindAux f m k).2 ∧
      keysA (ufFindAux f m k).2 =
        (if k ∈ keysA m then keysA m else keysA m ++ [k]) ∧
      (∀ j, rootOf (ufFindAux f m k).2 j = rootOf m j) ∧
      (ufFindAux f m k).2.length =
        (if k ∈ keysA m then m.length else m.length + 1) := by
  intro n
  induction n using Nat.strong_induction_on with
  | _ n ih =>
    intro k f hne hn hf
    obtain ⟨f', rfl⟩ : ∃ x, f = x + 1 := ⟨f - 1, by omega⟩
    cases hl : lookupA m k with
    | none =>
      have hk : k ∉ keysA m := by
        rw [mem_keysA_iff_lookupA, hl]; simp
      have hfresh := rootOf_insert_fresh w hk hne
      have hlen : (insertA m k k).length = m.length + 1 := by
        have h1 : (keysA (insertA m k k)).length = (keysA m ++ [k]).length := by
          rw [keysA_insertA_of_not_mem m k k hk]
        simp only [keysA, List.length_map, List.length_append,
          List.length_cons, List.length_nil] at h1
        omega
      simp only [ufFindAux, hl]
      refine ⟨(rootOf_not_mem hk).symm, hfresh.1, ?_, hfresh.2, ?_⟩
      · rw [keysA_insertA_of_not_mem m k k hk, if_neg hk]
      · rw [if_neg hk, hlen]
    | some cur =>
      have hk : k ∈ keysA m := WFM.lookup_key_mem hl
      by_cases hck : cur = k
      · have heq : ufFindAux (f' + 1) m k = (k, m) := by
          simp only [ufFindAux, hl, if_pos hck]
        rw [heq]
        exact ⟨(rootOf_lookup_self (hck ▸ hl)).symm, w, by rw [if_pos hk],
          fun j => rfl, by rw [if_pos hk]⟩
      · have hcur_mem : cur ∈ keysA m := w.lookup_mem hl
        have hcur_ne : cur ≠ "" := w.key_ne hcur_mem
        have hlt := measureLt_parent_lt w hl hck
        have ihc := ih (measureLt m cur) (by omega) cur f' hcur_ne le_rfl (by omega)
        obtain ⟨ih1, ih2, ih3, ih4, ih5⟩ := ihc
        rw [if_pos hcur_mem] at ih3 ih5
        set m₁ := (ufFindAux f' m cur).2 with hm₁
        set r := (ufFindAux f' m cur).1 with hrdef
        have hrval : r = rootOf m cur := ih1
        have hkm₁ : k ∈ keysA m₁ := by rw [ih3]; exact hk
        have hrmem : r ∈ keysA m₁ := by
          rw [ih3, hrval]; exact rootOf_mem w hcur_mem
        have hrroot : lookupA m₁ r = some r := by
          have h1 : rootOf m₁ r = r := by
            rw [ih4 r, hrval, rootOf_idem w]
          have := rootOf_root ih2 hrmem
          rwa [h1] at this
        have hrk : r < k := by
          have h1 : r ≤ cur := hrval ▸ rootOf_le w (measureLt m cur) cur le_rfl
          have h2 : cur ≤ k := w.lookup_le hl
          exact lt_of_le_of_lt h1 (lt_of_le_of_ne h2 hck)
        have hroot₁ : rootOf m₁ k = k ∨ rootOf m₁ k = r := by
          right
          rw [ih4 k, rootOf_step w hl, hrval]
        have hins := rootOf_insertA ih2 hkm₁ hrroot hrk hroot₁
        have heq : ufFindAux (f' + 1) m k = (r, insertA m₁ k r) := by
          simp only [ufFindAux, hl, if_neg hck]
        rw [heq]
        refine ⟨by rw [hrval, rootOf_step w hl], hins.1, ?_, ?_, ?_⟩
        · rw [keysA_insertA_of_mem m₁ k r hkm₁, ih3, if_pos hk]
        · intro j
          rw [hins.2 j, ih4 j]
          have hnr : rootOf m j ≠ k := rootOf_ne_non_root w hl hck j
          rw [if_neg hnr]
        · rw [length_insertA_of_mem r hkm₁, ih5, if_pos hk]

/-- The `find` wrapper: for a nonempty id on a well-formed map. -/
theorem ufFind_spec {m : UFMap} (w : WFM m) {k : String} (hne : k ≠ "") :
    (ufFind m k).1 = rootOf m k ∧
    WFM (ufFind m k).2 ∧
    keysA (ufFind m k).2 = (if k ∈ keysA m then keysA m else keysA m ++ [k]) ∧
    (∀ j, rootOf (ufFind m k).2 j = rootOf m j) ∧
    (ufFind m k).2.length = (if k ∈ keysA m then m.length else m.length + 1) := by
  have h := ufFindAux_spec w (measureLt m k) k (m.length + 1) hne le_rfl
    (Nat.lt_succ_of_le (measureLt_le_length m k))
  simpa only [ufFind, if_neg hne] using h

/-! ### The specification of `union` -/

/-- The effect of one `union(a, b)` call on root values, as a function of
the two current roots (`winner`/`loser` mirror the source). -/
def mergeFn (x y : String) : String → String := fun v =>
  if x = y then v
  else
    let winner := if x < y then x else y
    let loser := if winner = x then y else x
    if v = loser then winner else v

theorem ufUnion_spec {m : UFMap} (w : WFM m) {a b : String} (ha : a ≠ "")
    (hb : b ≠ "") :
    WFM (ufUnion m a b) ∧
    (∀ j, rootOf (ufUnion m a b) j =
      mergeFn (rootOf m a) (rootOf m b) (rootOf m j)) ∧
    (∀ j ∈ keysA m, j ∈ keysA (ufUnion m a b)) ∧
    a ∈ keysA (ufUnion m a b) ∧ b ∈ keysA (ufUnion m a b) := by
  have hguard : ¬ (a = "" ∨ b = "") := by simp [ha, hb]
  obtain ⟨fa1, wa, keysa, rootsa, _⟩ := ufFind_spec w ha
  set m₁ := (ufFind m a).2 with hm₁
  have hamem : a ∈ keysA m₁ := by
    rw [keysa]
    by_cases h : a ∈ keysA m <;> simp [h]
  have hsub₁ : ∀ j ∈ keysA m, j ∈ keysA m₁ := by
    intro j hj
    rw [keysa]
    by_cases h : a ∈ keysA m <;> simp [h, hj]
  obtain ⟨fb1, wb, keysb, rootsb, _⟩ := ufFind_spec wa hb
  set m₂ := (ufFind m₁ b).2 with hm₂
  have hbmem : b ∈ keysA m₂ := by
    rw [keysb]
    by_cases h : b ∈ keysA m₁ <;> simp [h]
  have hsub₂ : ∀ j ∈ keysA m₁, j ∈ keysA m₂ := by
    intro j hj
    rw [keysb]
    by_cases h : b ∈ keysA m₁ <;> simp [h, hj]
  have hamem₂ : a ∈ keysA m₂ := hsub₂ a hamem
  have hsub : ∀ j ∈ keysA m, j ∈ keysA m₂ := fun j hj => hsub₂ j (hsub₁ j hj)
  have hfa : (ufFind m a).1 = rootOf m a := fa1
  have hfb : (ufFind m₁ b).1 = rootOf m b := by rw [fb1, rootsa b]
  have hroots₂ : ∀ j, rootOf m₂ j = rootOf m j := fun j => by
    rw [rootsb j, rootsa j]
  -- the two roots are roots of `m₂`
  have hrootA : rootOf m₂ (rootOf m a) = rootOf m a := by
    rw [hroots₂, rootOf_idem w]
  have hrootB : rootOf m₂ (rootOf m b) = rootOf m b := by
    rw [hroots₂, rootOf_idem w]
  have hmemA : rootOf m a ∈ keysA m₂ := by
    have h1 : rootOf m₁ a ∈ keysA m₁ := rootOf_mem wa hamem
    rw [rootsa a] at h1
    exact hsub₂ _ h1
  have hmemB : rootOf m b ∈ keysA m₂ := by
    have h1 : rootOf m₂ b ∈ keysA m₂ := rootOf_mem wb hbmem
    rwa [hroots₂ b] at h1
  have hlookA : lookupA m₂ (rootOf m a) = some (rootOf m a) := by
    have := rootOf_root wb hmemA
    rwa [hrootA] at this
  have hlookB : lookupA m₂ (rootOf m b) = some (rootOf m b) := by
    have := rootOf_root wb hmemB
    rwa [hrootB] at this
  by_cases hab : rootOf m a = rootOf m b
  · have heq : ufUnion m a b = m₂ := by
      simp only [ufUnion, if_neg hguard]
      rw [if_pos (by rw [hfa, hfb]; exact hab)]
    rw [heq]
    refine ⟨wb, ?_, hsub, hamem₂, hbmem⟩
    intro j
    rw [hroots₂ j, mergeFn, if_pos hab]
  · set rA := rootOf m a with hrA
    set rB := rootOf m b with hrB
    set winner := if rA < rB then rA else rB with hw
    set loser := if winner = rA then rB else rA with hlz
    have hne : rA ≠ rB := hab
    have hwl : winner < loser ∧ (winner = rA ∨ winner = rB) ∧
        (loser = rA ∨ loser = rB) := by
      rcases lt_trichotomy rA rB with h | h | h
      · rw [hlz, hw, if_pos h, if_pos rfl]
        exact ⟨h, Or.inl rfl, Or.inr rfl⟩
      · exact absurd h hne
      · have hnlt : ¬ (rA < rB) := not_lt_of_gt h
        rw [hlz, hw, if_neg hnlt]
        rw [if_neg (Ne.symm hne)]
        exact ⟨h, Or.inr rfl, Or.inl rfl⟩
    have hlmem : loser ∈ keysA m₂ := by
      rcases hwl.2.2 with h | h <;> rw [h]
      · exact hmemA
      · exact hmemB
    have hwlook : lookupA m₂ winner = some winner := by
      rcases hwl.2.1 with h | h <;> rw [h]
      · exact hlookA
      · exact hlookB
    have hlroot : rootOf m₂ loser = loser := by
      rcases hwl.2.2 with h | h <;> rw [h]
      · exact hrootA
      · exact hrootB
    have hins := rootOf_insertA wb hlmem hwlook hwl.1 (Or.inl hlroot)
    have heq : ufUnion m a b = insertA m₂ loser winner := by
      simp only [ufUnion, if_neg hguard]
      rw [if_neg (by rw [hfa, hfb]; exact hne)]
      rw [hfa, hfb]
    rw [heq]
    have hkeys₃ : keysA (insertA m₂ loser winner) = keysA m₂ :=
      keysA_insertA_of_mem m₂ loser winner hlmem
    refine ⟨hins.1, ?_, ?_, ?_, ?_⟩
    · intro j
      rw [hins.2 j, hroots₂ j, mergeFn, if_neg hne]
    · intro j hj
      rw [hkeys₃]
      exact hsub j hj
    · rw [hkeys₃]; exact hamem₂
    · rw [hkeys₃]; exact hbmem

/-! ### Connectivity semantics of the folded decisions -/

/-- One undirected edge taken from a list of unordered pairs. -/
def edgeRel (E : List (String × String)) (x y : String) : Prop :=
  (x, y) ∈ E ∨ (y, x) ∈ E

/-- `Linked E x y`: the keys `x` and `y` are connected by the edges `E`
(the equivalence closure). -/
def Linked (E : List (String × String)) : String → String → Prop :=
  Relation.EqvGen (edgeRel E)

/-- Every string occurring in an edge. -/
def edgeKeys (E : List (String × String)) : List String :=
  E.map Prod.fst ++ E.map Prod.snd

/-- `r` is the lexicographically least key connected to `v`. -/
def IsCompMin (E : List (String × String)) (v r : String) : Prop :=
  Linked E v r ∧ ∀ w, Linked E v w → r ≤ w

theorem Linked.refl (E : List (String × String)) (x : String) : Linked E x x :=
  Relation.EqvGen.refl x

theorem Linked.symm {E : List (String × String)} {x y : String}
    (h : Linked E x y) : Linked E y x :=
  Relation.EqvGen.symm x y h

theorem Linked.trans {E : List (String × String)} {x y z : String}
    (h1 : Linked E x y) (h2 : Linked E y z) : Linked E x z :=
  Relation.EqvGen.trans x y z h1 h2

theorem Linked.of_edge {E : List (String × String)} {a b : String}
    (h : (a, b) ∈ E) : Linked E a b :=
  Relation.EqvGen.rel a b (Or.inl h)

theorem Linked.mono {E E' : List (String × String)} (hsub : ∀ e ∈ E, e ∈ E')
    {x y : String} (h : Linked E x y) : Linked E' x y := by
  refine Relation.EqvGen.mono ?_ h
  intro u v huv
  rcases huv with h1 | h1
  · exact Or.inl (hsub _ h1)
  · exact Or.inr (hsub _ h1)

theorem Linked.endpoints {E : List (String × String)} {x y : String}
    (h : Linked E x y) (hne : x ≠ y) :
    x ∈ edgeKeys E ∧ y ∈ edgeKeys E := by
  induction h with
  | 
 rel u v huv =>
    rcases huv with h1 | h1
    · constructor
      · exact List.mem_append_left _ (List.mem_map_of_mem Prod.fst h1)
      · exact List.mem_append_right _ (List.mem_map_of_mem Prod.snd h1)
    · constructor
      · exact List.mem_append_right _ (List.mem_map_of_mem Prod.snd h1)
      · exact List.mem_append_left _ (List.mem_map_of_mem Prod.fst h1)
  | refl u => exact absurd rfl hne
  | 
 symm u v _ ih => exact (ih (Ne.symm hne)).symm
  | 
 trans u v z _ _ ih1 ih2 =>
    by_cases huv : u = v
    · subst huv
      exact ih2 hne
    · by_cases hvz : v = z
      · subst hvz
        exact ih1 hne
      · exact ⟨(ih1 huv).1, (ih2 hvz).2⟩

theorem Linked.eq_of_nil {x y : String} (h : Linked [] x y) : x = y := by
  by_contra hne
  have := h.endpoints hne
  simp [edgeKeys] at this

theorem Linked.eq_of_not_mem {E : List (String × String)} {x y : String}
    (h : Linked E x y) (hx : x ∉ edgeKeys E) : x = y := by
  by_contra hne
  exact hx (h.endpoints hne).1

/-- Adding one edge `(a, b)`: the new connectivity decomposes into the old
one, possibly routed once through the new edge. -/
theorem linked_append_iff {E : List (String × String)} {a b x y : String} :
    Linked (E ++ [(a, b)]) x y ↔
      Linked E x y ∨ (Linked E x a ∧ Linked E b y) ∨
        (Linked E x b ∧ Linked E a y) := by
  constructor
  · intro h
    induction h with
    | 
 rel u v huv =>
      rcases huv with h1 | h1
      · rcases List.mem_append.mp h1 with h2 | h2
        · exact Or.inl (Linked.of_edge h2)
        · simp only [List.mem_singleton, Prod.mk.injEq] at h2
          exact Or.inr (Or.inl ⟨h2.1 ▸ Linked.refl E u, h2.2 ▸ Linked.refl E v⟩)
      · rcases List.mem_append.mp h1 with h2 | h2
        · exact Or.inl (Linked.of_edge h2).symm
        · simp only [List.mem_singleton, Prod.mk.injEq] at h2
          exact Or.inr (Or.inr ⟨h2.2 ▸ Linked.refl E u, h2.1 ▸ Linked.refl E v⟩)
    | refl u => exact Or.inl (Linked.refl E u)
    | 
 symm u v _ ih =>
      rcases ih with h1 | ⟨h1, h2⟩ | ⟨h1, h2⟩
      · exact Or.inl h1.symm
      · exact Or.inr (Or.inr ⟨h2.symm, h1.symm⟩)
      · exact Or.inr (Or.inl ⟨h2.symm, h1.symm⟩)
    | 
 trans u v z _ _ ih1 ih2 =>
      rcases ih1 with h1 | ⟨h1, h2⟩ | ⟨h1, h2⟩ <;>
        rcases ih2 with h3 | ⟨h3, h4⟩ | ⟨h3, h4⟩
      · exact Or.inl (h1.trans h3)
      · exact Or.inr (Or.inl ⟨h1.trans h3, h4⟩)
      · exact Or.inr (Or.inr ⟨h1.trans h3, h4⟩)
      · exact Or.inr (Or.inl ⟨h1, h2.trans h3⟩)
      · exact Or.inr (Or.inl ⟨h1, h4⟩)
      · exact Or.inl (h1.trans h4)
      · exact Or.inr (Or.inr ⟨h1, h2.trans h3⟩)
      · exact Or.inl (h1.trans h4)
      · exact Or.inr (Or.inr ⟨h1, h4⟩)
  · intro h
    have hsub : ∀ e ∈ E, e ∈ E ++ [(a, b)] := fun e he =>
      List.mem_append_left _ he
    have hedge : Linked (E ++ [(a, b)]) a b :=
      Linked.of_edge (List.mem_append_right _ (List.mem_singleton.mpr rfl))
    rcases h with h1 | ⟨h1, h2⟩ | ⟨h1, h2⟩
    · exact h1.mono hsub
    · exact ((h1.mono hsub).trans hedge).trans (h2.mono hsub)
    · exact ((h1.mono hsub).trans hedge.symm).trans (h2.mono hsub)

theorem compMin_unique {E : List (String × String)} {v r r' : String}
    (h1 : IsCompMin E v r) (h2 : IsCompMin E v r') : r = r' :=
  le_antisymm (h1.2 r' h2.1) (h2.2 r h1.1)

theorem compMin_congr {E : List (String × String)} {v w r r' : String}
    (h1 : IsCompMin E v r) (h2 : IsCompMin E w r') (hvw : Linked E v w) :
    r = r' :=
  le_antisymm (h1.2 r' (hvw.trans h2.1)) (h2.2 r (hvw.symm.trans h1.1))

theorem compMin_singleton {E : List (String × String)} {v : String}
    (hv : v ∉ edgeKeys E) : IsCompMin E v v := by
  refine ⟨Linked.refl E v, fun w hw => ?_⟩
  rw [hw.eq_of_not_mem hv]

theorem compMin_ne_of_not_linked {E : List (String × String)}
    {v w r r' : String} (h1 : IsCompMin E v r) (h2 : IsCompMin E w r')
    (h : ¬ Linked E v w) : r ≠ r' := by
  intro hc
  exact h ((h1.1.trans (hc ▸ h2.1).symm))

/-- The heart of the determinism proof: if `Fv`, `Fa`, `Fb` are the
component minima of `v`, `a`, `b`, then after adding the edge `(a, b)` the
component minimum of `v` is `mergeFn Fa Fb Fv` — exactly the root
transformation a `union(a, b)` call performs. -/
theorem compMin_step {E : List (String × String)} {a b Fa Fb v Fv : String}
    (hv : IsCompMin E v Fv) (ha : IsCompMin E a Fa) (hb : IsCompMin E b Fb) :
    IsCompMin (E ++ [(a, b)]) v (mergeFn Fa Fb Fv) := by
  have hsub : ∀ e ∈ E, e ∈ E ++ [(a, b)] := fun e he => List.mem_append_left _ he
  have hedge : Linked (E ++ [(a, b)]) a b := Linked.of_edge (by simp)
  by_cases hab : Fa = Fb
  · have hval : mergeFn Fa Fb Fv = Fv := by
      simp only [mergeFn, if_pos hab]
    rw [hval]
    refine ⟨hv.1.mono hsub, ?_⟩
    intro z hz
    rcases linked_append_iff.mp hz with h1 | ⟨h1, h2⟩ | ⟨h1, h2⟩
    · exact hv.2 z h1
    · have hFv : Fv = Fa := compMin_congr hv ha h1
      rw [hFv, hab]
      exact hb.2 z h2
    · have hFv : Fv = Fb := compMin_congr hv hb h1
      rw [hFv, ← hab]
      exact ha.2 z h2
  · obtain ⟨win, los, hwl, hset, hval⟩ :
      ∃ win los, win < los ∧
        ((win = Fa ∧ los = Fb) ∨ (win = Fb ∧ los = Fa)) ∧
        ∀ x, mergeFn Fa Fb x = if x = los then win else x := by
      rcases lt_trichotomy Fa Fb with hlt | heq | hgt
      · refine ⟨Fa, Fb, hlt, Or.inl ⟨rfl, rfl⟩, fun x => ?_⟩
        simp only [mergeFn, if_neg hab, if_pos hlt]
        simp
      · exact absurd heq hab
      · refine ⟨Fb, Fa, hgt, Or.inr ⟨rfl, rfl⟩, fun x => ?_⟩
        simp only [mergeFn, if_neg hab, if_neg (not_lt_of_gt hgt)]
        rw [if_neg (Ne.symm hab)]
    have hwin_le : win ≤ Fa ∧ win ≤ Fb := by
      rcases hset with ⟨h1, h2⟩ | ⟨h1, h2⟩
      · exact ⟨le_of_eq h1, h2 ▸ le_of_lt hwl⟩
      · exact ⟨h2 ▸ le_of_lt hwl, le_of_eq h1⟩
    by_cases hva : Linked E v a
    · have hv'a : Linked (E ++ [(a, b)]) v a := hva.mono hsub
      have hv'b : Linked (E ++ [(a, b)]) v b := hv'a.trans hedge
      have hFv : Fv = Fa := compMin_congr hv ha hva
      have hvalw : mergeFn Fa Fb Fv = win := by
        rw [hval Fv]
        rcases hset with ⟨h1, h2⟩ | ⟨h1, h2⟩
        · rw [if_neg (show Fv ≠ los by rw [hFv, ← h1]; exact ne_of_lt hwl), hFv, h1]
        · rw [if_pos (show Fv = los by rw [hFv, h2])]
      rw [hvalw]
      constructor
      · rcases hset with ⟨h1, _⟩ | ⟨h1, _⟩
        · rw [h1]
          exact hv'a.trans (ha.1.mono hsub)
        · rw [h1]
          exact hv'b.trans (hb.1.mono hsub)
      · intro z hz
        rcases linked_append_iff.mp hz with h1 | ⟨h1, h2⟩ | ⟨h1, h2⟩
        · exact le_trans (hFv ▸ hwin_le.1) (hv.2 z h1)
        · exact le_trans hwin_le.2 (hb.2 z h2)
        · exact le_trans hwin_le.1 (ha.2 z h2)
    · by_cases hvb : Linked E v b
      · have hv'b : Linked (E ++ [(a, b)]) v b := hvb.mono hsub
        have hv'a : Linked (E ++ [(a, b)]) v a := hv'b.trans hedge.symm
        have hFv : Fv = Fb := compMin_congr hv hb hvb
        have hvalw : mergeFn Fa Fb Fv = win := by
          rw [hval Fv]
          rcases hset with ⟨h1, h2⟩ | ⟨h1, h2⟩
          · rw [if_pos (show Fv = los by rw [hFv, h2])]
          · rw [if_neg (show Fv ≠ los by rw [hFv, ← h1]; exact ne_of_lt hwl), hFv, h1]
        rw [hvalw]
        constructor
        · rcases hset with ⟨h1, _⟩ | ⟨h1, _⟩
          · rw [h1]
            exact hv'a.trans (ha.1.mono hsub)
          · rw [h1]
            exact hv'b.trans (hb.1.mono hsub)
        · intro z hz
          rcases linked_append_iff.mp hz with h1 | ⟨h1, h2⟩ | ⟨h1, h2⟩
          · exact le_trans (hFv ▸ hwin_le.2) (hv.2 z h1)
          · exact le_trans hwin_le.2 (hb.2 z h2)
          · exact le_trans hwin_le.1 (ha.2 z h2)
      · have h1 : Fv ≠ Fa := compMin_ne_of_not_linked hv ha hva
        have h2 : Fv ≠ Fb := compMin_ne_of_not_linked hv hb hvb
        have hvls : Fv ≠ los := by
          rcases hset with ⟨_, hl⟩ | ⟨_, hl⟩ <;> rw [hl] <;> assumption
        have hvalv : mergeFn Fa Fb Fv = Fv := by
          rw [hval Fv, if_neg hvls]
        rw [hvalv]
        refine ⟨hv.1.mono hsub, ?_⟩
        intro z hz
        rcases linked_append_iff.mp hz with hh | ⟨hh, _⟩ | ⟨hh, _⟩
        · exact hv.2 z hh
        · exact absurd hh hva
        · exact absurd hh hvb

/-! ### The invariant carried through the decision fold -/

/-- The edges actually folded into the union-find by `buildMergeResolver`:
the normalized pairs of the `"same"` decisions that pass its guards.  This
is the specification-side summary of the fold; everything else about the
final state is derived from it. -/
def edgesOf (decisions : List MergeItem) : List (String × String) :=
  decisions.filterMap fun item =>
    if item.verdict ≠ "same" then none
    else
      let a := normalizeId item.group_id_a
      let b := normalizeId item.group_id_b
      if a = "" ∨ b = "" ∨ a = b then none else some (a, b)

/-- The invariant: the map is well-formed, every folded edge endpoint is
registered, and every nonempty key's root is the least key of its
`Linked`-component. -/
structure UFInv (E : List (String × String)) (m : UFMap) : Prop where
  wf : WFM m
  edges_mem : ∀ e ∈ E, e.1 ∈ keysA m ∧ e.2 ∈ keysA m
  compMin : ∀ v, v ≠ "" → IsCompMin E v (rootOf m v)

theorem initUF_self_parent (groupIds : List String) :
    ∀ e ∈ initUF groupIds, e.2 = e.1 ∧ e.1 ≠ "" := by
  have main : ∀ (ids : List String) (m : UFMap),
      (∀ e ∈ m, e.2 = e.1 ∧ e.1 ≠ "") →
      ∀ e ∈ ids.foldl (fun m id => if id = "" then m else insertA m id id) m,
        e.2 = e.1 ∧ e.1 ≠ "" := by
    intro ids
    induction ids with
    | nil => intro m hm e he; exact hm e he
    | cons id t ih =>
      intro m hm e he
      simp only [List.foldl_cons] at he
      by_cases hid : id = ""
      · rw [if_pos hid] at he
        exact ih m hm e he
      · rw [if_neg hid] at he
        refine ih (insertA m id id) ?_ e he
        intro e' he'
        rcases mem_insertA m id id e' he' with h | h
        · rw [h]; exact ⟨rfl, hid⟩
        · exact hm e' h
  intro e he
  exact main groupIds [] (by simp) e he

theorem WFM_initUF (groupIds : List String) : WFM (initUF groupIds) := by
  have main : ∀ (ids : List String) (m : UFMap), WFM m →
      (∀ e ∈ m, e.2 = e.1) →
      WFM (ids.foldl (fun m id => if id = "" then m else insertA m id id) m) := by
    intro ids
    induction ids with
    | nil => intro m hm _; exact hm
    | cons id t ih =>
      intro m hm hself
      simp only [List.foldl_cons]
      by_cases hid : id = ""
      · rw [if_pos hid]
        exact ih m hm hself
      · rw [if_neg hid]
        have hv : id ∈ keysA (insertA m id id) := by
          by_cases h : id ∈ keysA m
          · rwa [keysA_insertA_of_mem m id id h]
          · rw [keysA_insertA_of_not_mem m id id h]; simp
        refine ih (insertA m id id) (hm.insert hid le_rfl hv) ?_
        intro e he
        rcases mem_insertA m id id e he with h | h
        · rw [h]
        · exact hself e h
  exact main groupIds [] ⟨by simp [keysA], by simp, by simp, by simp⟩
    (by simp)

theorem rootOf_self_parent_map {m : UFMap} (hself : ∀ e ∈ m, e.2 = e.1)
    (v : String) : rootOf m v = v := by
  cases hl : lookupA m v with
  | none =>
    exact rootOf_not_mem (by rw [mem_keysA_iff_lookupA, hl]; simp)
  | some x =>
    have hx : x = v := hself (v, x) (lookupA_mem hl)
    exact rootOf_lookup_self (hx ▸ hl)

theorem UFInv_initUF (groupIds : List String) : UFInv [] (initUF groupIds) := by
  refine ⟨WFM_initUF groupIds, by simp, ?_⟩
  intro v _
  rw [rootOf_self_parent_map
    (fun e he => (initUF_self_parent groupIds e he).1) v]
  exact ⟨Linked.refl [] v, fun z hz => le_of_eq hz.eq_of_nil⟩

theorem UFInv_decisionStep {E : List (String × String)} {m : UFMap}
    (inv : UFInv E m) (item : MergeItem) :
    UFInv (E ++ edgesOf [item]) (decisionStep m item) := by
  by_cases hverdict : item.verdict ≠ "same"
  · have h1 : decisionStep m item = m := by
      simp only [decisionStep, if_pos hverdict]
    have h2 : edgesOf [item] = [] := by
      simp only [edgesOf, List.filterMap, if_pos hverdict]
    rw [h1, h2, List.append_nil]
    exact inv
  · by_cases hguard : normalizeId item.group_id_a = "" ∨
        normalizeId item.group_id_b = "" ∨
        normalizeId item.group_id_a = normalizeId item.group_id_b
    · have h1 : decisionStep m item = m := by
        simp only [decisionStep, if_neg hverdict]
        rw [if_pos hguard]
      have h2 : edgesOf [item] = [] := by
        simp only [edgesOf, List.filterMap, if_neg hverdict]
        rw [if_pos hguard]
      rw [h1, h2, List.append_nil]
      exact inv
    · push_neg at hguard
      obtain ⟨ha, hb, hne⟩ := hguard
      have hguard' : ¬ (normalizeId item.group_id_a = "" ∨
          normalizeId item.group_id_b = "" ∨
          normalizeId item.group_id_a = normalizeId item.group_id_b) := by
        push_neg
        exact ⟨ha, hb, hne⟩
      have h1 : decisionStep m item =
          ufUnion m (normalizeId item.group_id_a) (normalizeId item.group_id_b) := by
        simp only [decisionStep, if_neg hverdict]
        rw [if_neg hguard']
      have h2 : edgesOf [item] =
          [(normalizeId item.group_id_a, normalizeId item.group_id_b)] := by
        simp only [edgesOf, List.filterMap, if_neg hverdict]
        rw [if_neg hguard']
      rw [h1, h2]
      obtain ⟨wu, roots, keysmono, hamem, hbmem⟩ := ufUnion_spec inv.wf ha hb
      refine ⟨wu, ?_, ?_⟩
      · intro e he
        rcases List.mem_append.mp he with h | h
        · obtain ⟨hm1, hm2⟩ := inv.edges_mem e h
          exact ⟨keysmono _ hm1, keysmono _ hm2⟩
        · simp only [List.mem_singleton] at h
          rw [h]
          exact ⟨hamem, hbmem⟩
      · intro v hvne
        rw [roots v]
        exact compMin_step (inv.compMin v hvne) (inv.compMin _ ha)
          (inv.compMin _ hb)

theorem edgesOf_cons (item : MergeItem) (t : List MergeItem) :
    edgesOf (item :: t) = edgesOf [item] ++ edgesOf t := by
  simp only [edgesOf, List.filterMap]
  cases h : (if item.verdict ≠ "same" then none
    else
      let a := normalizeId item.group_id_a
      let b := normalizeId item.group_id_b
      if a = "" ∨ b = "" ∨ a = b then none else some (a, b) :
      Option (String × String)) <;> simp

theorem UFInv_fold : ∀ (decisions : List MergeItem)
    (E : List (String × String)) (m : UFMap), UFInv E m →
    UFInv (E ++ edgesOf decisions) (foldDecisions m decisions)
  | [], E, m, inv => by
    simpa [foldDecisions, edgesOf] using inv
  | item :: t, E, m, inv => by
    have h1 := UFInv_decisionStep inv item
    have h2 := UFInv_fold t (E ++ edgesOf [item]) (decisionStep m item) h1
    have h3 : foldDecisions m (item :: t) =
        foldDecisions (decisionStep m item) t := by
      simp [foldDecisions]
    rw [h3, edgesOf_cons, ← List.append_assoc]
    exact h2

theorem buildMap_inv (groupIds : List String) (decisions : List MergeItem) :
    UFInv (edgesOf decisions) (buildMap groupIds decisions) := by
  have := UFInv_fold decisions [] (initUF groupIds) (UFInv_initUF groupIds)
  simpa [buildMap] using this

/-- The resolver returns `rootOf` of the built map on nonempty normalized
ids. -/
theorem buildMergeResolver_eq_rootOf (groupIds : List String)
    (decisions : List MergeItem) {k : String} (h : normalizeId k ≠ "") :
    buildMergeResolver groupIds decisions k =
      rootOf (buildMap groupIds decisions) (normalizeId k) := by
  have inv := buildMap_inv groupIds decisions
  have := (ufFind_spec inv.wf h).1
  simp only [buildMergeResolver, if_neg h]
  exact this

/-- The characterization: the resolver returns the least key of the
normalized argument's component under the folded `"same"` edges. -/
theorem buildMergeResolver_compMin (groupIds : List String)
    (decisions : List MergeItem) {k : String} (h : normalizeId k ≠ "") :
    IsCompMin (edgesOf decisions) (normalizeId k)
      (buildMergeResolver groupIds decisions k) := by
  rw [buildMergeResolver_eq_rootOf groupIds decisions h]
  exact (buildMap_inv groupIds decisions).compMin (normalizeId k) h

/-! ### Facts about `trim` -/

theorem dropWhile_head_false {α : Type} (p : α → Bool) :
    ∀ (l : List α) (c : α), (l.dropWhile p).head? = some c → p c = false := by
  intro l
  induction l with
  | nil => intro c h; simp [List.dropWhile] at h
  | cons a t ih =>
    intro c h
    by_cases hp : p a
    · rw [List.dropWhile_cons, if_pos hp] at h
      exact ih c h
    · rw [List.dropWhile_cons, if_neg hp] at h
      simp only [List.head?_cons, Option.some.injEq] at h
      rw [← h]
      simpa using hp

theorem dropWhile_eq_self_of_head {α : Type} (p : α → Bool) (l : List α)
    (h : ∀ c, l.head? = some c → p c = false) : l.dropWhile p = l := by
  cases l with
  | nil => rfl
  | cons a t =>
    rw [List.dropWhile_cons, if_neg (by simp [h a rfl])]

theorem dropWhile_drops {α : Type} (p : α → Bool) :
    ∀ l : List α, ∃ t, t ++ l.dropWhile p = l := by
  intro l
  induction l with
  | nil => exact ⟨[], rfl⟩
  | cons a t ih =>
    by_cases hp : p a
    · obtain ⟨s, hs⟩ := ih
      exact ⟨a :: s, by rw [List.dropWhile_cons, if_pos hp, List.cons_append, hs]⟩
    · exact ⟨[], by rw [List.dropWhile_cons, if_neg hp]; rfl⟩

theorem jsTrimList_reverse_head (l : List Char) (c : Char)
    (h : ((jsTrimList l).reverse).head? = some c) : jsIsWs c = false := by
  rw [jsTrimList, List.reverse_reverse] at h
  exact dropWhile_head_false jsIsWs _ c h

theorem jsTrimList_head (l : List Char) (c : Char)
    (h : (jsTrimList l).head? = some c) : jsIsWs c = false := by
  obtain ⟨t, ht⟩ := dropWhile_drops jsIsWs (l.dropWhile jsIsWs).reverse
  have hrev : jsTrimList l ++ t.reverse = l.dropWhile jsIsWs := by
    rw [jsTrimList]
    have := congrArg List.reverse ht
    rw [List.reverse_append, List.reverse_reverse] at this
    exact this
  cases hl : jsTrimList l with
  | nil => rw [hl] at h; simp at h
  | cons d rest =>
    rw [hl] at h
    simp only [List.head?_cons, Option.some.injEq] at h
    rw [hl] at hrev
    have : (l.dropWhile jsIsWs).head? = some d := by
      rw [← hrev]; simp
    have hfalse := dropWhile_head_false jsIsWs l d this
    rw [← h]
    exact hfalse

theorem jsTrimList_idem (l : List Char) : jsTrimList (jsTrimList l) = jsTrimList l := by
  have h1 : (jsTrimList l).dropWhile jsIsWs = jsTrimList l :=
    dropWhile_eq_self_of_head jsIsWs _ (jsTrimList_head l)
  have h2 : ((jsTrimList l).reverse).dropWhile jsIsWs = (jsTrimList l).reverse :=
    dropWhile_eq_self_of_head jsIsWs _ (jsTrimList_reverse_head l)
  show ((((jsTrimList l).dropWhile jsIsWs).reverse).dropWhile jsIsWs).reverse =
    jsTrimList l
  rw [h1, h2, List.reverse_reverse]

theorem jsTrim_idem (s : String) : jsTrim (jsTrim s) = jsTrim s := by
  show String.mk (jsTrimList (String.mk (jsTrimList s.toList)).toList) =
    String.mk (jsTrimList s.toList)
  have : (String.mk (jsTrimList s.toList)).toList = jsTrimList s.toList := rfl
  rw [this, jsTrimList_idem]

theorem normalizeId_idem (s : String) : normalizeId (normalizeId s) = normalizeId s :=
  jsTrim_idem s

/-! ### Every key the resolver can return is trim-normal -/

theorem edgesOf_endpoints_normal (decisions : List MergeItem) :
    ∀ x ∈ edgeKeys (edgesOf decisions), normalizeId x = x ∧ x ≠ "" := by
  intro x hx
  have hedge : ∃ e ∈ edgesOf decisions, e.1 = x ∨ e.2 = x := by
    rcases List.mem_append.mp hx with h | h
    · obtain ⟨e, he, hex⟩ := List.mem_map.mp h
      exact ⟨e, he, Or.inl hex⟩
    · obtain ⟨e, he, hex⟩ := List.mem_map.mp h
      exact ⟨e, he, Or.inr hex⟩
  obtain ⟨e, he, hex⟩ := hedge
  obtain ⟨item, _, hitem⟩ := List.mem_filterMap.mp he
  by_cases hverdict : item.verdict ≠ "same"
  · rw [if_pos hverdict] at hitem
    exact absurd hitem (by simp)
  · rw [if_neg hverdict] at hitem
    by_cases hguard : normalizeId item.group_id_a = "" ∨
        normalizeId item.group_id_b = "" ∨
        normalizeId item.group_id_a = normalizeId item.group_id_b
    · rw [if_pos hguard] at hitem
      exact absurd hitem (by simp)
    · rw [if_neg hguard] at hitem
      push_neg at hguard
      have he1 : e = (normalizeId item.group_id_a, normalizeId item.group_id_b) := by
        injection hitem with h
        exact h.symm
      rcases hex with h | h <;> rw [← h, he1]
      · exact ⟨normalizeId_idem _, hguard.1⟩
      · exact ⟨normalizeId_idem _, hguard.2.1⟩

/-- Whatever the resolver returns on a nonempty normalized id is itself a
nonempty trim-normal string. -/
theorem buildMergeResolver_normal (groupIds : List String)
    (decisions : List MergeItem) {k : String} (h : normalizeId k ≠ "") :
    normalizeId (buildMergeResolver groupIds decisions k) =
        buildMergeResolver groupIds decisions k ∧
      buildMergeResolver groupIds decisions k ≠ "" := by
  have hcm := buildMergeResolver_compMin groupIds decisions h
  by_cases hr : buildMergeResolver groupIds decisions k = normalizeId k
  · rw [hr]
    exact ⟨normalizeId_idem k, h⟩
  · have hlinked := hcm.1
    have hmem : buildMergeResolver groupIds decisions k ∈
        edgeKeys (edgesOf decisions) :=
      (hlinked.symm.endpoints hr).1
    exact edgesOf_endpoints_normal decisions _ hmem

/-! ### Resolver extensionality in the folded edge set -/

theorem IsCompMin_of_edges_ext {E E' : List (String × String)}
    (h : ∀ e, e ∈ E ↔ e ∈ E') {v r : String} (hm : IsCompMin E v r) :
    IsCompMin E' v r :=
  ⟨hm.1.mono fun e he => (h e).mp he,
   fun w hw => hm.2 w (hw.mono fun e he => (h e).mpr he)⟩

theorem normalizeId_empty : normalizeId "" = "" := rfl

/-- Two decision lists with the same set of folded `"same"` edges resolve
identically. -/
theorem buildMergeResolver_ext_edges {groupIds : List String}
    {ds ds' : List MergeItem}
    (h : ∀ e, e ∈ edgesOf ds ↔ e ∈ edgesOf ds') (k : String) :
    buildMergeResolver groupIds ds k = buildMergeResolver groupIds ds' k := by
  by_cases hk : normalizeId k = ""
  · simp [buildMergeResolver, hk]
  · exact compMin_unique
      (IsCompMin_of_edges_ext h (buildMergeResolver_compMin _ ds hk))
      (buildMergeResolver_compMin _ ds' hk)

theorem linked_single_iff {a b x y : String} :
    Linked [(a, b)] x y ↔ x = y ∨ (x = a ∧ y = b) ∨ (x = b ∧ y = a) := by
  have h := linked_append_iff (E := []) (a := a) (b := b) (x := x) (y := y)
  rw [List.nil_append] at h
  rw [h]
  constructor
  · rintro (h1 | ⟨h1, h2⟩ | ⟨h1, h2⟩)
    · exact Or.inl h1.eq_of_nil
    · exact Or.inr (Or.inl ⟨h1.eq_of_nil, h2.eq_of_nil.symm⟩)
    · exact Or.inr (Or.inr ⟨h1.eq_of_nil, h2.eq_of_nil.symm⟩)
  · rintro (rfl | ⟨rfl, rfl⟩ | ⟨rfl, rfl⟩)
    · exact Or.inl (Linked.refl [] x)
    · exact Or.inr (Or.inl ⟨Linked.refl [] x, Linked.refl [] y⟩)
    · exact Or.inr (Or.inr ⟨Linked.refl [] x, Linked.refl [] y⟩)

theorem compMin_pair_left {a b v r : String} (hab : a < b)
    (hm : IsCompMin [(a, b)] v r) (hv : v = a ∨ v = b) : r = a := by
  have hlink_a : Linked [(a, b)] v a := by
    rcases hv with rfl | rfl
    · exact Linked.refl _ v
    · exact (Linked.of_edge (by simp)).symm
  have hle : r ≤ a := hm.2 a hlink_a
  rcases linked_single_iff.mp hm.1 with rfl | ⟨rfl, rfl⟩ | ⟨rfl, rfl⟩
  · rcases hv with rfl | rfl
    · rfl
    · exact absurd hle (not_le_of_lt hab)
  · exact absurd hle (not_le_of_lt hab)
  · rfl

theorem compMin_pair_swap {a b v r : String} (hab : a < b)
    (hm : IsCompMin [(b, a)] v r) (hv : v = a ∨ v = b) : r = a := by
  have hlink_a : Linked [(b, a)] v a := by
    rcases hv with rfl | rfl
    · exact Linked.refl _ v
    · exact Linked.of_edge (by simp)
  have hle : r ≤ a := hm.2 a hlink_a
  rcases linked_single_iff.mp hm.1 with rfl | ⟨rfl, rfl⟩ | ⟨rfl, rfl⟩
  · rcases hv with rfl | rfl
    · rfl
    · exact absurd hle (not_le_of_lt hab)
  · rfl
  · exact absurd hle (not_le_of_lt hab)

theorem edgesOf_single_same {a b : String} (ha : normalizeId a = a)
    (hb : normalizeId b = b) (hane : a ≠ "") (hbne : b ≠ "") (hab : a ≠ b) :
    edgesOf [⟨a, b, "same"⟩] = [(a, b)] := by
  have hguard : ¬ (normalizeId a = "" ∨ normalizeId b = "" ∨
      normalizeId a = normalizeId b) := by
    rw [ha, hb]
    push_neg
    exact ⟨hane, hbne, hab⟩
  simp only [edgesOf, List.filterMap]
  rw [if_neg (show ¬ (("same" : String) ≠ "same") by simp)]
  rw [if_neg hguard, ha, hb]

/-! ## Claim theorems -/

/-- C1 (counterexample): the decision log stores a `"same"` decision for the
pair `("a", "b")` followed by a later `"different"` decision for the very
same stored pair.  `GET /api/merges` (`handleGet`) serves only the latest
decision per pair, so the session's resolver — built from the served items
exactly as in `bootstrap` (`pomoc.js`): `buildMergeResolver(groupIds,
mergeData.items)` — does NOT put `"a"` and `"b"` in the same class: the
`"same"` verdict has been un-merged by the later `"different"` verdict,
contradicting the claim. -/
theorem c1_counterexample_later_different_hides_same :
    ((⟨1, "a", "b", "same"⟩ : MergeRow) ∈
        [(⟨1, "a", "b", "same"⟩ : MergeRow), ⟨2, "a", "b", "different"⟩]) ∧
    buildMergeResolver ["a", "b"]
        (mergesHandleGet [⟨1, "a", "b", "same"⟩, ⟨2, "a", "b", "different"⟩])
        "a" ≠
      buildMergeResolver ["a", "b"]
        (mergesHandleGet [⟨1, "a", "b", "same"⟩, ⟨2, "a", "b", "different"⟩])
        "b" := by
  constructor
  · simp
  · decide

/-- C1 (amended): within the decision list actually served to the session,
`buildMergeResolver` folds every `"same"` decision into the union-find
regardless of its position, so a `"different"` decision elsewhere in that
list never un-merges it; the un-merging of the original claim happens one
stage earlier, in `handleGet`'s latest-decision-per-pair filter. -/
theorem c1_resolver_folds_every_served_same_decision :
    ∀ (groupIds : List String) (decisions : List MergeItem)
      (item : MergeItem), item ∈ decisions → item.verdict = "same" →
      normalizeId item.group_id_a ≠ "" → normalizeId item.group_id_b ≠ "" →
      buildMergeResolver groupIds decisions item.group_id_a =
        buildMergeResolver groupIds decisions item.group_id_b := by
  intro groupIds ds item hmem hverdict ha hb
  by_cases hab : normalizeId item.group_id_a = normalizeId item.group_id_b
  · simp only [buildMergeResolver, hab]
  · have hedge : (normalizeId item.group_id_a, normalizeId item.group_id_b) ∈
        edgesOf ds := by
      rw [edgesOf, List.mem_filterMap]
      refine ⟨item, hmem, ?_⟩
      rw [if_neg (by simp [hverdict])]
      rw [if_neg (by push_neg; exact ⟨ha, hb, hab⟩)]
    have hcma := buildMergeResolver_compMin groupIds ds ha
    have hcmb := buildMergeResolver_compMin groupIds ds hb
    exact compMin_congr hcma hcmb (Linked.of_edge hedge)

/-- Witness for C1 (amended): a `"same"` decision followed by a later
`"different"` decision for the same pair, both served; the resolver still
merges. -/
theorem c1_resolver_folds_every_served_same_decision_witness :
    buildMergeResolver ["a", "b"]
        [⟨"a", "b", "same"⟩, ⟨"a", "b", "different"⟩] "a" =
      buildMergeResolver ["a", "b"]
        [⟨"a", "b", "same"⟩, ⟨"a", "b", "different"⟩] "b" :=
  c1_resolver_folds_every_served_same_decision ["a", "b"]
    [⟨"a", "b", "same"⟩, ⟨"a", "b", "different"⟩] ⟨"a", "b", "same"⟩
    (by simp) rfl (by decide) (by decide)

/-- C2: the resolver is independent of the order of the decision list
(resolution returns the lexicographic minimum of the connected component,
which depends only on the set of folded edges), and on a single `"same"`
decision between keys `a < b` the representative of both keys is `a` —
whichever order the two keys were passed in. -/
theorem c2_resolver_order_invariant_and_lex_tiebreak :
    (∀ (groupIds : List String) (ds ds' : List MergeItem), ds.Perm ds' →
      ∀ k, buildMergeResolver groupIds ds k =
        buildMergeResolver groupIds ds' k) ∧
    (∀ (groupIds : List String) (a b : String),
      normalizeId a = a → normalizeId b = b → a ≠ "" → b ≠ "" → a < b →
      buildMergeResolver groupIds [⟨a, b, "same"⟩] a = a ∧
      buildMergeResolver groupIds [⟨a, b, "same"⟩] b = a ∧
      buildMergeResolver groupIds [⟨b, a, "same"⟩] a = a ∧
      buildMergeResolver groupIds [⟨b, a, "same"⟩] b = a) := by
  constructor
  · intro groupIds ds ds' hperm k
    have hedges : ∀ e, e ∈ edgesOf ds ↔ e ∈ edgesOf ds' := by
      intro e
      exact (hperm.filterMap _).mem_iff
    exact buildMergeResolver_ext_edges hedges k
  · intro groupIds a b ha hb hane hbne hab
    have hne : a ≠ b := ne_of_lt hab
    have hna : normalizeId a ≠ "" := by rw [ha]; exact hane
    have hnb : normalizeId b ≠ "" := by rw [hb]; exact hbne
    have hE1 : edgesOf [(⟨a, b, "same"⟩ : MergeItem)] = [(a, b)] :=
      edgesOf_single_same ha hb hane hbne hne
    have hE2 : edgesOf [(⟨b, a, "same"⟩ : MergeItem)] = [(b, a)] :=
      edgesOf_single_same hb ha hbne hane (Ne.symm hne)
    have h1 := buildMergeResolver_compMin groupIds [⟨a, b, "same"⟩] hna
    have h2 := buildMergeResolver_compMin groupIds [⟨a, b, "same"⟩] hnb
    have h3 := buildMergeResolver_compMin groupIds [⟨b, a, "same"⟩] hna
    have h4 := buildMergeResolver_compMin groupIds [⟨b, a, "same"⟩] hnb
    rw [hE1, ha] at h1
    rw [hE1, hb] at h2
    rw [hE2, ha] at h3
    rw [hE2, hb] at h4
    exact ⟨compMin_pair_left hab h1 (Or.inl rfl),
      compMin_pair_left hab h2 (Or.inr rfl),
      compMin_pair_swap hab h3 (Or.inl rfl),
      compMin_pair_swap hab h4 (Or.inr rfl)⟩

/-- Witness for C2 at concrete inputs: shuffling a two-decision list leaves
every resolution unchanged, and a single `same("a","b")` decision gives
both keys the representative `"a"` in either argument order. -/
theorem c2_resolver_order_invariant_and_lex_tiebreak_witness :
    (buildMergeResolver ["k1", "k2", "k3"]
        [⟨"k1", "k2", "same"⟩, ⟨"k2", "k3", "same"⟩] "k3" =
      buildMergeResolver ["k1", "k2", "k3"]
        [⟨"k2", "k3", "same"⟩, ⟨"k1", "k2", "same"⟩] "k3") ∧
    buildMergeResolver ["a", "b"] [⟨"a", "b", "same"⟩] "b" = "a" ∧
    buildMergeResolver ["a", "b"] [⟨"b", "a", "same"⟩] "b" = "a" := by
  refine ⟨c2_resolver_order_invariant_and_lex_tiebreak.1 _ _ _ (by decide) "k3",
    ?_, ?_⟩
  · exact (c2_resolver_order_invariant_and_lex_tiebreak.2 ["a", "b"] "a" "b"
      (by decide) (by decide) (by decide) (by decide)
      (String.lt_iff_toList_lt.mpr (by decide))).2.1
  · exact (c2_resolver_order_invariant_and_lex_tiebreak.2 ["a", "b"] "a" "b"
      (by decide) (by decide) (by decide) (by decide)
      (String.lt_iff_toList_lt.mpr (by decide))).2.2.2

/-- C3: every base key resolves to exactly one canonical key, resolution is
stable under repetition (`find (find k) = find k`), and folding the same
`"same"` decision twice yields the same partition as folding it once. -/
theorem c3_partition_stability_and_union_idempotence :
    (∀ (groupIds : List String) (ds : List MergeItem) (k : String),
      ∃! r, buildMergeResolver groupIds ds k = r) ∧
    (∀ (groupIds : List String) (ds : List MergeItem) (k : String),
      buildMergeResolver groupIds ds (buildMergeResolver groupIds ds k) =
        buildMergeResolver groupIds ds k) ∧
    (∀ (groupIds : List String) (ds₁ ds₂ : List MergeItem) (d : MergeItem)
      (k : String),
      buildMergeResolver groupIds (ds₁ ++ [d] ++ [d] ++ ds₂) k =
        buildMergeResolver groupIds (ds₁ ++ [d] ++ ds₂) k) := by
  refine ⟨fun groupIds ds k => ⟨buildMergeResolver groupIds ds k, rfl,
    fun y hy => hy.symm⟩, ?_, ?_⟩
  · intro groupIds ds k
    by_cases hk : normalizeId k = ""
    · simp [buildMergeResolver, hk, normalizeId_empty]
    · obtain ⟨hnorm, hne⟩ := buildMergeResolver_normal groupIds ds hk
      set r := buildMergeResolver groupIds ds k with hr
      have hnr : normalizeId r ≠ "" := by rw [hnorm]; exact hne
      have hcmr := buildMergeResolver_compMin groupIds ds hnr
      rw [hnorm] at hcmr
      have hcmk := buildMergeResolver_compMin groupIds ds hk
      exact compMin_congr hcmr hcmk hcmk.1.symm
  · intro groupIds ds₁ ds₂ d k
    apply buildMergeResolver_ext_edges
    intro e
    simp only [edgesOf, List.filterMap_append, List.mem_append]
    tauto

/-! ### The correction map keeps the latest matching entry -/

theorem find?_concat {α : Type} (p : α → Bool) (a : α) :
    ∀ l : List α, (l ++ [a]).find? p =
      match l.find? p with
      | some x => some x
      | none => if p a then some a else none := by
  intro l
  induction l with
  | nil => cases hp : p a <;> simp [List.find?, hp]
  | cons b t ih =>
    by_cases hb : p b
    · simp [List.find?, hb]
    · have hb' : p b = false := by simpa using hb
      simp only [List.cons_append, List.find?, hb']
      exact ih

theorem correctionByGroup_lookup (corrections : List CorrItem)
    (groupIdByXid : List (String × String)) (resolveGroupId : String → String)
    (g : String) :
    lookupA (correctionByGroup corrections groupIdByXid resolveGroupId) g =
      corrections.reverse.find? fun item =>
        decide (corrBaseGroup groupIdByXid item ≠ "" ∧
          resolveGroupId (corrBaseGroup groupIdByXid item) = g) := by
  have main : ∀ (l : List CorrItem) (mp : List (String × CorrItem)),
      lookupA (l.foldl (fun mp item =>
        let baseGroup := corrBaseGroup groupIdByXid item
        if baseGroup = "" then mp
        else insertA mp (resolveGroupId baseGroup) item) mp) g =
      match l.reverse.find? (fun item =>
        decide (corrBaseGroup groupIdByXid item ≠ "" ∧
          resolveGroupId (corrBaseGroup groupIdByXid item) = g)) with
      | some x => some x
      | none => lookupA mp g := by
    intro l
    induction l with
    | nil => intro mp; simp
    | cons item t ih =>
      intro mp
      simp only [List.foldl_cons, List.reverse_cons]
      rw [ih, find?_concat]
      cases hres : t.reverse.find? (fun item =>
        decide (corrBaseGroup groupIdByXid item ≠ "" ∧
          resolveGroupId (corrBaseGroup groupIdByXid item) = g)) with
      | some x => rfl
      | none =>
        by_cases hbase : corrBaseGroup groupIdByXid item = ""
        · rw [if_pos hbase]
          have hp : (decide (corrBaseGroup groupIdByXid item ≠ "" ∧
              resolveGroupId (corrBaseGroup groupIdByXid item) = g)) = false := by
            simp [hbase]
          rw [hp]
          simp
        · rw [if_neg hbase]
          by_cases hg : resolveGroupId (corrBaseGroup groupIdByXid item) = g
          · have hp : (decide (corrBaseGroup groupIdByXid item ≠ "" ∧
                resolveGroupId (corrBaseGroup groupIdByXid item) = g)) = true := by
              simp [hbase, hg]
            rw [hp, hg]
            simp [lookupA_insertA_self]
          · have hp : (decide (corrBaseGroup groupIdByXid item ≠ "" ∧
                resolveGroupId (corrBaseGroup groupIdByXid item) = g)) = false := by
              simp [hg]
            rw [hp]
            simp only [if_neg]
            have hne : g ≠ resolveGroupId (corrBaseGroup groupIdByXid item) :=
              fun hc => hg hc.symm
            rw [lookupA_insertA_ne _ _ hne]
            simp
  have h := main corrections []
  cases hres : corrections.reverse.find? (fun item =>
      decide (corrBaseGroup groupIdByXid item ≠ "" ∧
        resolveGroupId (corrBaseGroup groupIdByXid item) = g)) with
  | some x => rw [hres] at h; exact h
  | none => rw [hres] at h; exact h

/-- C4 (counterexample): a group whose latest matching served correction
carries no coordinates (`lat`/`lon` are JSON `null`).  The claim says the
projector applies the latest *coordinate-carrying* correction, here
`(1, 1)`.  The code instead stores the latest matching correction
regardless of coordinates, and since JavaScript `Number(null)` is `0`
(finite), it projects `(0, 0)` — not `(1, 1)` — onto the member. -/
theorem c4_counterexample_null_correction_shadows_coordinates :
    numOf CoordVal.cnull = some 0 ∧
    (applyCorrections
        [⟨"x1", "g", "", "", "", [14, 50], none⟩]
        [⟨"x1", "g", .cnum 1, .cnum 1⟩, ⟨"x2", "g", .cnull, .cnull⟩]
        [] (buildMergeResolver ["g"] [])).1 =
      [⟨"x1", "g", "", "", "", [0, 0], some (0, 0)⟩] ∧
    (applyCorrections
        [⟨"x1", "g", "", "", "", [14, 50], none⟩]
        [⟨"x1", "g", .cnum 1, .cnum 1⟩, ⟨"x2", "g", .cnull, .cnull⟩]
        [] (buildMergeResolver ["g"] [])).1 ≠
      [⟨"x1", "g", "", "", "", [1, 1], some (1, 1)⟩] := by
  refine ⟨rfl, by decide, by decide⟩

theorem applyCorrections_get? (features : List Feature)
    (corrections : List CorrItem) (groupIdByXid : List (String × String))
    (resolveGroupId : String → String) (i : Nat) (f : Feature)
    (hget : features.get? i = some f) :
    ((applyCorrections features corrections groupIdByXid resolveGroupId).1).get? i =
      some (
        if resolveGroupId (featureBaseGroup f) = "" then f
        else
          match lookupA (correctionByGroup corrections groupIdByXid resolveGroupId)
              (resolveGroupId (featureBaseGroup f)) with
          | none => f
          | some correction =>
            match numOf correction.lat, numOf correction.lon with
            | some lat, some lon =>
              { f with coordinates := [lon, lat], corrected := some (lat, lon) }
            | _, _ => f) := by
  simp only [applyCorrections]
  rw [List.get?_map, hget]
  rfl

/-- C4 (amended): for every record of the canonical group `g`, the
projector looks up the correction appearing *latest in input order* among
all corrections whose resolved canonical key is `g` — regardless of whether
they carry coordinates — and (a) if that entry's `lat`/`lon` convert to
finite numbers (a JSON `null` converts to `0`), projects exactly that
coordinate onto the record and marks it corrected; (b) if no correction
matches, leaves the record unchanged; (c) if the latest matching entry's
coordinates do not convert to finite numbers (absent fields), leaves the
record unchanged even when an earlier matching entry carried
coordinates. -/
theorem c4_latest_matching_correction_projected :
    ∀ (features : List Feature) (corrections : List CorrItem)
      (groupIdByXid : List (String × String))
      (resolveGroupId : String → String) (i : Nat) (f : Feature),
      features.get? i = some f →
      resolveGroupId (featureBaseGroup f) ≠ "" →
      ((∀ item la lo,
        corrections.reverse.find? (fun it =>
          decide (corrBaseGroup groupIdByXid it ≠ "" ∧
            resolveGroupId (corrBaseGroup groupIdByXid it) =
              resolveGroupId (featureBaseGroup f))) = some item →
        numOf item.lat = some la → numOf item.lon = some lo →
        ((applyCorrections features corrections groupIdByXid
            resolveGroupId).1).get? i =
          some { f with coordinates := [lo, la], corrected := some (la, lo) }) ∧
      (corrections.reverse.find? (fun it =>
          decide (corrBaseGroup groupIdByXid it ≠ "" ∧
            resolveGroupId (corrBaseGroup groupIdByXid it) =
              resolveGroupId (featureBaseGroup f))) = none →
        ((applyCorrections features corrections groupIdByXid
            resolveGroupId).1).get? i = some f) ∧
      (∀ item,
        corrections.reverse.find? (fun it =>
          decide (corrBaseGroup groupIdByXid it ≠ "" ∧
            resolveGroupId (corrBaseGroup groupIdByXid it) =
              resolveGroupId (featureBaseGroup f))) = some item →
        numOf item.lat = none ∨ numOf item.lon = none →
        ((applyCorrections features corrections groupIdByXid
            resolveGroupId).1).get? i = some f)) := by
  intro features corrections groupIdByXid resolveGroupId i f hget hgne
  have hbase := applyCorrections_get? features corrections groupIdByXid
    resolveGroupId i f hget
  rw [if_neg hgne, correctionByGroup_lookup] at hbase
  refine ⟨?_, ?_, ?_⟩
  · intro item la lo hfind hla hlo
    rw [hfind] at hbase
    rw [hbase]
    simp only [hla, hlo]
  · intro hfind
    rw [hfind] at hbase
    exact hbase
  · intro item hfind hbad
    rw [hfind] at hbase
    rw [hbase]
    rcases hbad with h | h
    · cases hlo : numOf item.lon <;> simp [h, hlo]
    · cases hla : numOf item.lat <;> simp [h, hla]

/-- Witness for C4 (amended): two coordinate-carrying corrections `(1, 1)`
then `(2, 2)` for the same group; both members of the group are projected
to `(2, 2)` and marked corrected. -/
theorem c4_latest_matching_correction_projected_witness :
    ((applyCorrections
        [⟨"x1", "g", "", "", "", [14, 50], none⟩,
         ⟨"x2", "g", "", "", "", [15, 51], none⟩]
        [⟨"x1", "g", .cnum 1, .cnum 1⟩, ⟨"x2", "g", .cnum 2, .cnum 2⟩]
        [] (buildMergeResolver ["g"] [])).1).get? 0 =
      some ⟨"x1", "g", "", "", "", [2, 2], some (2, 2)⟩ ∧
    ((applyCorrections
        [⟨"x1", "g", "", "", "", [14, 50], none⟩,
         ⟨"x2", "g", "", "", "", [15, 51], none⟩]
        [⟨"x1", "g", .cnum 1, .cnum 1⟩, ⟨"x2", "g", .cnum 2, .cnum 2⟩]
        [] (buildMergeResolver ["g"] [])).1).get? 1 =
      some ⟨"x2", "g", "", "", "", [2, 2], some (2, 2)⟩ := by
  constructor
  · exact (c4_latest_matching_correction_projected
      [⟨"x1", "g", "", "", "", [14, 50], none⟩,
       ⟨"x2", "g", "", "", "", [15, 51], none⟩]
      [⟨"x1", "g", .cnum 1, .cnum 1⟩, ⟨"x2", "g", .cnum 2, .cnum 2⟩]
      [] (buildMergeResolver ["g"] []) 0 _ rfl (by decide)).1
      ⟨"x2", "g", .cnum 2, .cnum 2⟩ 2 2 (by decide) rfl rfl
  · exact (c4_latest_matching_correction_projected
      [⟨"x1", "g", "", "", "", [14, 50], none⟩,
       ⟨"x2", "g", "", "", "", [15, 51], none⟩]
      [⟨"x1", "g", .cnum 1, .cnum 1⟩, ⟨"x2", "g", .cnum 2, .cnum 2⟩]
      [] (buildMergeResolver ["g"] []) 1 _ rfl (by decide)).1
      ⟨"x2", "g", .cnum 2, .cnum 2⟩ 2 2 (by decide) rfl rfl

/-! ### Gateway claim theorems -/

/-- C5: the four rejection families of the correction gateway, each with
its distinct human-readable `detail`, and no row appended (an `error`
outcome is returned before the `INSERT` is ever built). -/
theorem c5_correction_validation_rejections :
    (∀ (body : CorrectionBody) (authorized : Bool),
      jsTrim body.xid ≠ "" →
      jsLower (jsTrim body.verdict) ≠ "" →
      ¬ (jsLower (jsTrim body.verdict) = "ok" ∨
         jsLower (jsTrim body.verdict) = "wrong" ∨
         jsLower (jsTrim body.verdict) = "flag") →
      correctionsHandlePost (some body) authorized =
        .error "Neplatný typ hlášení") ∧
    (∀ (body : CorrectionBody) (authorized : Bool),
      jsTrim body.xid ≠ "" → body.lat.isSome = true → body.lon.isSome = true →
      jsLower (jsTrim body.verdict) = "ok" →
      correctionsHandlePost (some body) authorized =
        .error "Potvrzení OK nesmí obsahovat polohu") ∧
    (∀ (body : CorrectionBody) (authorized : Bool),
      jsTrim body.xid ≠ "" → body.lat = none → body.lon = none →
      jsLower (jsTrim body.verdict) = "wrong" →
      correctionsHandlePost (some body) authorized =
        .error "Pro opravu je nutná poloha") ∧
    (∀ (body : CorrectionBody) (authorized : Bool) (la lo : ℚ),
      jsTrim body.xid ≠ "" → body.lat = some la → body.lon = some lo →
      jsLower (jsTrim body.verdict) = "wrong" →
      (la < -90 ∨ 90 < la ∨ lo < -180 ∨ 180 < lo) →
      correctionsHandlePost (some body) authorized =
        .error "Neplatná poloha") ∧
    (("Neplatný typ hlášení" : String) ≠ "Potvrzení OK nesmí obsahovat polohu" ∧
     ("Neplatný typ hlášení" : String) ≠ "Pro opravu je nutná poloha" ∧
     ("Neplatný typ hlášení" : String) ≠ "Neplatná poloha" ∧
     ("Potvrzení OK nesmí obsahovat polohu" : String) ≠ "Pro opravu je nutná poloha" ∧
     ("Potvrzení OK nesmí obsahovat polohu" : String) ≠ "Neplatná poloha" ∧
     ("Pro opravu je nutná poloha" : String) ≠ "Neplatná poloha") := by
  refine ⟨?_, ?_, ?_, ?_, by decide⟩
  · intro body auth hxid hvne hvbad
    simp only [correctionsHandlePost, if_neg hxid, if_neg hvne]
    rw [if_pos hvbad]
  · intro body auth hxid hla hlo hv
    have hvne : jsLower (jsTrim body.verdict) ≠ "" := by rw [hv]; decide
    have hmem : ¬ ¬ (jsLower (jsTrim body.verdict) = "ok" ∨
        jsLower (jsTrim body.verdict) = "wrong" ∨
        jsLower (jsTrim body.verdict) = "flag") := by
      simp [hv]
    simp only [correctionsHandlePost, if_neg hxid, if_neg hvne]
    rw [if_neg hmem]
    rw [if_neg (show ¬ (body.lat.isSome ≠ body.lon.isSome) by
      rw [hla, hlo]; simp)]
    rw [if_pos (show jsLower (jsTrim body.verdict) = "ok" ∧
        (body.lat.isSome && body.lon.isSome) = true by
      rw [hv, hla, hlo]; exact ⟨rfl, rfl⟩)]
  · intro body auth hxid hla hlo hv
    have hvne : jsLower (jsTrim body.verdict) ≠ "" := by rw [hv]; decide
    have hmem : ¬ ¬ (jsLower (jsTrim body.verdict) = "ok" ∨
        jsLower (jsTrim body.verdict) = "wrong" ∨
        jsLower (jsTrim body.verdict) = "flag") := by
      simp [hv]
    simp only [correctionsHandlePost, if_neg hxid, if_neg hvne]
    rw [if_neg hmem]
    rw [if_neg (show ¬ (body.lat.isSome ≠ body.lon.isSome) by
      rw [hla, hlo]; simp)]
    rw [if_neg (show ¬ (jsLower (jsTrim body.verdict) = "ok" ∧
        (body.lat.isSome && body.lon.isSome) = true) by
      rw [hv]; simp)]
    rw [if_pos (show jsLower (jsTrim body.verdict) = "wrong" ∧
        ¬ ((body.lat.isSome && body.lon.isSome) = true) by
      rw [hv, hla, hlo]; exact ⟨rfl, by simp⟩)]
  · intro body auth la lo hxid hla hlo hv hrange
    have hvne : jsLower (jsTrim body.verdict) ≠ "" := by rw [hv]; decide
    have hmem : ¬ ¬ (jsLower (jsTrim body.verdict) = "ok" ∨
        jsLower (jsTrim body.verdict) = "wrong" ∨
        jsLower (jsTrim body.verdict) = "flag") := by
      simp [hv]
    have hlas : body.lat.isSome = true := by rw [hla]; rfl
    have hlos : body.lon.isSome = true := by rw [hlo]; rfl
    simp only [correctionsHandlePost, if_neg hxid, if_neg hvne]
    rw [if_neg hmem]
    rw [if_neg (show ¬ (body.lat.isSome ≠ body.lon.isSome) by
      rw [hlas, hlos]; simp)]
    rw [if_neg (show ¬ (jsLower (jsTrim body.verdict) = "ok" ∧
        (body.lat.isSome && body.lon.isSome) = true) by
      rw [hv]; simp)]
    rw [if_neg (show ¬ (jsLower (jsTrim body.verdict) = "wrong" ∧
        ¬ ((body.lat.isSome && body.lon.isSome) = true)) by
      rw [hv, hlas, hlos]; simp)]
    rw [if_pos (show (body.lat.isSome && body.lon.isSome) = true ∧
        ((∃ x, body.lat = some x ∧ (x < -90 ∨ 90 < x)) ∨
         (∃ x, body.lon = some x ∧ (x < -180 ∨ 180 < x))) by
      refine ⟨by rw [hlas, hlos]; rfl, ?_⟩
      rcases hrange with h | h | h | h
      · exact Or.inl ⟨la, hla, Or.inl h⟩
      · exact Or.inl ⟨la, hla, Or.inr h⟩
      · exact Or.inr ⟨lo, hlo, Or.inl h⟩
      · exact Or.inr ⟨lo, hlo, Or.inr h⟩)]

/-- Witness for C5: four concrete rejected submissions, one per family. -/
theorem c5_correction_validation_rejections_witness :
    correctionsHandlePost
        (some ⟨"X1", none, none, "bogus", "", ""⟩) true =
      .error "Neplatný typ hlášení" ∧
    correctionsHandlePost
        (some ⟨"X1", some 50, some 14, "ok", "", ""⟩) true =
      .error "Potvrzení OK nesmí obsahovat polohu" ∧
    correctionsHandlePost
        (some ⟨"X1", none, none, "wrong", "", ""⟩) true =
      .error "Pro opravu je nutná poloha" ∧
    correctionsHandlePost
        (some ⟨"X1", some 100, some 14, "wrong", "", ""⟩) true =
      .error "Neplatná poloha" :=
  ⟨c5_correction_validation_rejections.1 _ true (by decide) (by decide)
      (by decide),
   c5_correction_validation_rejections.2.1 _ true (by decide) rfl rfl
      (by decide),
   c5_correction_validation_rejections.2.2.1 _ true (by decide) rfl rfl
      (by decide),
   c5_correction_validation_rejections.2.2.2.1 _ true 100 14 (by decide) rfl
      rfl (by decide) (by norm_num)⟩

theorem pairKey_comm (x y : String) : pairKey x y = pairKey y x := by
  by_cases hx : x = ""
  · by_cases hy : y = "" <;> simp [pairKey, hx, hy]
  · by_cases hy : y = ""
    · simp [pairKey, hx, hy]
    · rcases lt_trichotomy x y with h | h | h
      · rw [pairKey, if_neg (by simp [hx, hy]), if_pos h,
          pairKey, if_neg (by simp [hx, hy]), if_neg (not_lt_of_gt h)]
      · subst h
        rfl
      · rw [pairKey, if_neg (by simp [hx, hy]), if_neg (not_lt_of_gt h),
          pairKey, if_neg (by simp [hx, hy]), if_pos h]

/-- C6: every row the merge gateway appends has its two group ids sorted
(`group_id_a < group_id_b`), and the canonical pair key of the submitted
pair — in either orientation — equals the pair key of the stored row, so an
existence lookup keyed by `pairKey` finds the same row either way; in
particular submitting `("zzz", "aaa")` stores `("aaa", "zzz")`. -/
theorem c6_merge_pair_sorted_before_insert :
    (∀ (body : MergeBody) (authorized : Bool) (a b v : String),
      mergesHandlePost (some body) authorized = .inserted a b v →
      a < b ∧
      pairKey (jsTrim body.group_id_a) (jsTrim body.group_id_b) = pairKey a b ∧
      pairKey (jsTrim body.group_id_b) (jsTrim body.group_id_a) = pairKey a b) ∧
    mergesHandlePost (some ⟨"zzz", "aaa", "same"⟩) true =
      .inserted "aaa" "zzz" "same" := by
  constructor
  · intro body auth a b v h
    simp only [mergesHandlePost] at h
    by_cases h1 : jsTrim body.group_id_a = "" ∨ jsTrim body.group_id_b = ""
    · rw [if_pos h1] at h
      exact absurd h (by simp)
    · rw [if_neg h1] at h
      push_neg at h1
      by_cases h2 : jsTrim body.group_id_a = jsTrim body.group_id_b
      · rw [if_pos h2] at h
        exact absurd h (by simp)
      · rw [if_neg h2] at h
        by_cases h3 : (if jsLower (jsTrim body.verdict) = "" then "same"
            else jsLower (jsTrim body.verdict)) ≠ "same" ∧
            (if jsLower (jsTrim body.verdict) = "" then "same"
            else jsLower (jsTrim body.verdict)) ≠ "different"
        · rw [if_pos h3] at h
          exact absurd h (by simp)
        · rw [if_neg h3] at h
          by_cases h4 : ¬ auth
          · rw [if_pos h4] at h
            exact absurd h (by simp)
          · rw [if_neg h4] at h
            by_cases h5 : jsTrim body.group_id_b < jsTrim body.group_id_a
            · rw [if_pos h5] at h
              injection h with ha hb hv
              subst ha; subst hb
              refine ⟨h5, ?_, ?_⟩
              · exact pairKey_comm _ _
              · rfl
            · rw [if_neg h5] at h
              injection h with ha hb hv
              subst ha; subst hb
              refine ⟨lt_of_le_of_ne (le_of_not_lt h5) h2, rfl, ?_⟩
              exact pairKey_comm _ _
  · simp only [mergesHandlePost]
    rw [if_neg (by decide)]
    rw [if_neg (by decide)]
    rw [if_neg (show ¬ ((if jsLower (jsTrim "same") = "" then "same"
        else jsLower (jsTrim "same")) ≠ "same" ∧
        (if jsLower (jsTrim "same") = "" then "same"
        else jsLower (jsTrim "same")) ≠ "different") by decide)]
    rw [if_neg (by simp)]
    rw [if_pos (String.lt_iff_toList_lt.mpr (by decide))]
    have hv : (if jsLower (jsTrim "same") = "" then "same"
        else jsLower (jsTrim "same")) = "same" := by decide
    rw [hv, show jsTrim "aaa" = "aaa" by decide, show jsTrim "zzz" = "zzz" by decide]

/-- Witness for C6: the stored orientation and the two pair-key lookups at
the concrete `("zzz", "aaa")` submission. -/
theorem c6_merge_pair_sorted_before_insert_witness :
    ("aaa" : String) < "zzz" ∧
    pairKey (jsTrim "zzz") (jsTrim "aaa") = pairKey "aaa" "zzz" ∧
    pairKey (jsTrim "aaa") (jsTrim "zzz") = pairKey "aaa" "zzz" :=
  c6_merge_pair_sorted_before_insert.1 ⟨"zzz", "aaa", "same"⟩ true
    "aaa" "zzz" "same" c6_merge_pair_sorted_before_insert.2

/-- C7: neither gateway ever reaches its `INSERT` unless every validation
check and the authorization check have passed: an `inserted` outcome forces
`authorized = true`, a parsed body, and all the validated properties; every
rejected submission yields an `error` outcome, which appends nothing. -/
theorem c7_no_append_without_validation_and_authorization :
    (∀ (body? : Option MergeBody) (authorized : Bool) (a b v : String),
      mergesHandlePost body? authorized = .inserted a b v →
      authorized = true ∧ ∃ body, body? = some body ∧
        jsTrim body.group_id_a ≠ "" ∧ jsTrim body.group_id_b ≠ "" ∧
        jsTrim body.group_id_a ≠ jsTrim body.group_id_b ∧
        (v = "same" ∨ v = "different")) ∧
    (∀ (body? : Option CorrectionBody) (authorized : Bool) (row : CorrRow),
      correctionsHandlePost body? authorized = .inserted row →
      authorized = true ∧ ∃ body, body? = some body ∧
        jsTrim body.xid ≠ "" ∧
        (row.verdict = "ok" ∨ row.verdict = "wrong" ∨ row.verdict = "flag") ∧
        (body.lat.isSome = body.lon.isSome) ∧
        ¬ (row.verdict = "ok" ∧ row.has_coordinates = true) ∧
        ¬ (row.verdict = "wrong" ∧ row.has_coordinates = false) ∧
        (∀ la, row.lat = some la → -90 ≤ la ∧ la ≤ 90) ∧
        (∀ lo, row.lon = some lo → -180 ≤ lo ∧ lo ≤ 180)) := by
  constructor
  · intro body? auth a b v h
    match body? with
    | none => exact absurd h (by simp [mergesHandlePost])
    | some body =>
      simp only [mergesHandlePost] at h
      by_cases h1 : jsTrim body.group_id_a = "" ∨ jsTrim body.group_id_b = ""
      · rw [if_pos h1] at h
        exact absurd h (by simp)
      · rw [if_neg h1] at h
        push_neg at h1
        by_cases h2 : jsTrim body.group_id_a = jsTrim body.group_id_b
        · rw [if_pos h2] at h
          exact absurd h (by simp)
        · rw [if_neg h2] at h
          by_cases h3 : (if jsLower (jsTrim body.verdict) = "" then "same"
              else jsLower (jsTrim body.verdict)) ≠ "same" ∧
              (if jsLower (jsTrim body.verdict) = "" then "same"
              else jsLower (jsTrim body.verdict)) ≠ "different"
          · rw [if_pos h3] at h
            exact absurd h (by simp)
          · rw [if_neg h3] at h
            by_cases h4 : ¬ auth
            · rw [if_pos h4] at h
              exact absurd h (by simp)
            · rw [if_neg h4] at h
              have hauth : auth = true := by
                by_contra hc
                exact h4 (by simp [Bool.not_eq_true] at hc ⊢; exact hc)
              have hverdict : v = "same" ∨ v = "different" := by
                rw [not_and_or] at h3
                by_cases h5 : jsTrim body.group_id_b < jsTrim body.group_id_a
                · rw [if_pos h5] at h
                  injection h with ha hb hv
                  rcases h3 with h3 | h3 <;> push_neg at h3 <;>
                    rw [← hv, h3] <;> simp
                · rw [if_neg h5] at h
                  injection h with ha hb hv
                  rcases h3 with h3 | h3 <;> push_neg at h3 <;>
                    rw [← hv, h3] <;> simp
              exact ⟨hauth, body, rfl, h1.1, h1.2, h2, hverdict⟩
  · intro body? auth row h
    match body? with
    | none => exact absurd h (by simp [correctionsHandlePost])
    | some body =>
      simp only [correctionsHandlePost] at h
      by_cases h1 : jsTrim body.xid = ""
      · rw [if_pos h1] at h
        exact absurd h (by simp)
      · rw [if_neg h1] at h
        by_cases h2 : ¬ ((if jsLower (jsTrim body.verdict) = "" then
            (if (body.lat.isSome && body.lon.isSome) = true then "wrong" else "flag")
            else jsLower (jsTrim body.verdict)) = "ok" ∨
            (if jsLower (jsTrim body.verdict) = "" then
            (if (body.lat.isSome && body.lon.isSome) = true then "wrong" else "flag")
            else jsLower (jsTrim body.verdict)) = "wrong" ∨
            (if jsLower (jsTrim body.verdict) = "" then
            (if (body.lat.isSome && body.lon.isSome) = true then "wrong" else "flag")
            else jsLower (jsTrim body.verdict)) = "flag")
        · rw [if_pos h2] at h
          exact absurd h (by simp)
        · rw [if_neg h2] at h
          push_neg at h2
          by_cases h3 : body.lat.isSome ≠ body.lon.isSome
          · rw [if_pos h3] at h
            exact absurd h (by simp)
          · rw [if_neg h3] at h
            push_neg at h3
            by_cases h4 : (if jsLower (jsTrim body.verdict) = "" then
                (if (body.lat.isSome && body.lon.isSome) = true then "wrong" else "flag")
                else jsLower (jsTrim body.verdict)) = "ok" ∧
                (body.lat.isSome && body.lon.isSome) = true
            · rw [if_pos h4] at h
              exact absurd h (by simp)
            · rw [if_neg h4] at h
              by_cases h5 : (if jsLower (jsTrim body.verdict) = "" then
                  (if (body.lat.isSome && body.lon.isSome) = true then "wrong" else "flag")
                  else jsLower (jsTrim body.verdict)) = "wrong" ∧
                  ¬ ((body.lat.isSome && body.lon.isSome) = true)
              · rw [if_pos h5] at h
                exact absurd h (by simp)
              · rw [if_neg h5] at h
                by_cases h6 : (body.lat.isSome && body.lon.isSome) = true ∧
                    ((∃ x, body.lat = some x ∧ (x < -90 ∨ 90 < x)) ∨
                     (∃ x, body.lon = some x ∧ (x < -180 ∨ 180 < x)))
                · rw [if_pos h6] at h
                  exact absurd h (by simp)
                · rw [if_neg h6] at h
                  by_cases h7 : jsTrim body.email ≠ "" ∧
                      ¬ emailMatches (jsTrim body.email) = true
                  · rw [if_pos h7] at h
                    exact absurd h (by simp)
                  · rw [if_neg h7] at h
                    by_cases h8 : ¬ auth
                    · rw [if_pos h8] at h
                      exact absurd h (by simp)
                    · rw [if_neg h8] at h
                      have hauth : auth = true := by
                        by_contra hc
                        exact h8 (by simp [Bool.not_eq_true] at hc ⊢; exact hc)
                      injection h with hrow
                      refine ⟨hauth, body, rfl, h1, ?_, h3, ?_, ?_, ?_, ?_⟩
                      · rw [← hrow]
                        exact h2
                      · rw [← hrow]
                        intro hc
                        exact h4 ⟨hc.1, hc.2⟩
                      · rw [← hrow]
                        intro hc
                        have hfalse : (body.lat.isSome && body.lon.isSome) = false :=
                          hc.2
                        exact h5 ⟨hc.1, by rw [hfalse]; simp⟩
                      · intro la hla
                        rw [← hrow] at hla
                        simp only at hla
                        by_cases hhas : (body.lat.isSome && body.lon.isSome) = true
                        · rw [if_pos hhas] at hla
                          push_neg at h6
                          have hnot := h6 hhas
                          push_neg at hnot
                          have := hnot.1 la hla
                          constructor <;> linarith [this.1, this.2]
                        · rw [if_neg hhas] at hla
                          exact absurd hla (by simp)
                      · intro lo hlo
                        rw [← hrow] at hlo
                        simp only at hlo
                        by_cases hhas : (body.lat.isSome && body.lon.isSome) = true
                        · rw [if_pos hhas] at hlo
                          push_neg at h6
                          have hnot := h6 hhas
                          push_neg at hnot
                          have := hnot.2 lo hlo
                          constructor <;> linarith [this.1, this.2]
                        · rw [if_neg hhas] at hlo
                          exact absurd hlo (by simp)

/-- Witness for C7: a fully valid, authorized submission on each gateway,
inverted through the theorem. -/
theorem c7_no_append_without_validation_and_authorization_witness :
    (true = true ∧ ∃ body : MergeBody, some ⟨"g1", "g2", "same"⟩ = some body ∧
      jsTrim body.group_id_a ≠ "" ∧ jsTrim body.group_id_b ≠ "" ∧
      jsTrim body.group_id_a ≠ jsTrim body.group_id_b ∧
      ("same" = "same" ∨ "same" = "different")) := by
  have h := c7_no_append_without_validation_and_authorization.1
    (some ⟨"g1", "g2", "same"⟩) true "g1" "g2" "same"
  apply h
  simp only [mergesHandlePost]
  rw [if_neg (by decide), if_neg (by decide)]
  rw [if_neg (show ¬ ((if jsLower (jsTrim "same") = "" then "same"
      else jsLower (jsTrim "same")) ≠ "same" ∧
      (if jsLower (jsTrim "same") = "" then "same"
      else jsLower (jsTrim "same")) ≠ "different") by decide)]
  rw [if_neg (by simp)]
  rw [if_neg (show ¬ (jsTrim "g2" < jsTrim "g1") by
    rw [show jsTrim "g2" = "g2" by decide, show jsTrim "g1" = "g1" by decide]
    rw [String.lt_iff_toList_lt]
    decide)]
  rw [show jsTrim "g1" = "g1" by decide, show jsTrim "g2" = "g2" by decide]
  rw [show (if jsLower (jsTrim "same") = "" then "same"
      else jsLower (jsTrim "same")) = "same" by decide]

/-- C10: a merge submission whose verdict is missing or trims to the empty
string is never rejected as an unrecognized verdict; the verdict defaults
to `"same"` and, when the remaining validation and the authorization check
pass, the appended row carries verdict `"same"`. -/
theorem c10_empty_verdict_defaults_to_same :
    ∀ (body : MergeBody) (authorized : Bool),
      jsTrim body.verdict = "" →
      (mergesHandlePost (some body) authorized ≠
        .error "Neplatný typ rozhodnutí") ∧
      (jsTrim body.group_id_a ≠ "" → jsTrim body.group_id_b ≠ "" →
        jsTrim body.group_id_a ≠ jsTrim body.group_id_b → authorized = true →
        ∃ a b, mergesHandlePost (some body) authorized =
          .inserted a b "same") := by
  intro body auth hv
  have hlow : jsLower (jsTrim body.verdict) = "" := by
    rw [hv]
    rfl
  have hverdict : (if jsLower (jsTrim body.verdict) = "" then "same"
      else jsLower (jsTrim body.verdict)) = "same" := by
    rw [if_pos hlow]
  have hmem : ¬ ((if jsLower (jsTrim body.verdict) = "" then "same"
      else jsLower (jsTrim body.verdict)) ≠ "same" ∧
      (if jsLower (jsTrim body.verdict) = "" then "same"
      else jsLower (jsTrim body.verdict)) ≠ "different") := by
    rw [hverdict]
    simp
  constructor
  · intro hc
    simp only [mergesHandlePost] at hc
    by_cases h1 : jsTrim body.group_id_a = "" ∨ jsTrim body.group_id_b = ""
    · rw [if_pos h1] at hc
      exact absurd hc (by simp)
    · rw [if_neg h1] at hc
      by_cases h2 : jsTrim body.group_id_a = jsTrim body.group_id_b
      · rw [if_pos h2] at hc
        exact absurd hc (by simp)
      · rw [if_neg h2, if_neg hmem] at hc
        by_cases h4 : ¬ auth
        · rw [if_pos h4] at hc
          exact absurd hc (by simp)
        · rw [if_neg h4] at hc
          by_cases h5 : jsTrim body.group_id_b < jsTrim body.group_id_a <;>
            [rw [if_pos h5] at hc; rw [if_neg h5] at hc] <;>
            exact absurd hc (by simp)
  · intro ha hb hne hauth
    simp only [mergesHandlePost]
    rw [if_neg (by push_neg; exact ⟨ha, hb⟩), if_neg hne, if_neg hmem]
    rw [if_neg (by rw [hauth]; simp)]
    by_cases h5 : jsTrim body.group_id_b < jsTrim body.group_id_a
    · rw [if_pos h5, hverdict]
      exact ⟨jsTrim body.group_id_b, jsTrim body.group_id_a, rfl⟩
    · rw [if_neg h5, hverdict]
      exact ⟨jsTrim body.group_id_a, jsTrim body.group_id_b, rfl⟩

/-- Witness for C10: an empty-verdict submission for a valid pair is
accepted and stored with verdict `"same"`. -/
theorem c10_empty_verdict_defaults_to_same_witness :
    (mergesHandlePost (some ⟨"g1", "g2", ""⟩) true ≠
      .error "Neplatný typ rozhodnutí") ∧
    ∃ a b, mergesHandlePost (some ⟨"g1", "g2", ""⟩) true =
      .inserted a b "same" := by
  have h := c10_empty_verdict_defaults_to_same ⟨"g1", "g2", ""⟩ true (by decide)
  exact ⟨h.1, h.2 (by decide) (by decide) (by decide) rfl⟩

/-! ### The review-candidate pool -/

theorem get_cons_eraseIdx_perm {α : Type} :
    ∀ (l : List α) (i : Nat) (x : α), l.get? i = some x →
      (x :: l.eraseIdx i).Perm l := by
  intro l
  induction l with
  | nil => intro i x h; simp at h
  | cons a t ih =>
    intro i x h
    cases i with
    | zero =>
      simp only [List.get?] at h
      injection h with h
      subst h
      simp [List.eraseIdx]
    | succ i =>
      simp only [List.get?] at h
      have hperm := ih i x h
      have h1 : (a :: t).eraseIdx (i + 1) = a :: t.eraseIdx i := rfl
      rw [h1]
      exact (List.Perm.swap a x (t.eraseIdx i)).trans (hperm.cons a)

/-- C8: one `pickRandom` call serves exactly the element at the random
index of the effective pool (the remaining pool, refilled with all
candidates exactly when it had become empty), removes it from the pool
without replacement (the served element plus the new pool is a permutation
of the old pool), pushes the previously shown item onto the history stack,
and a following `pickPrev` restores the previously shown item, pops the
history, and pushes the drained item back into the pool. -/
theorem c8_review_pool_drain_refill_backtrack :
    ∀ (α : Type) (s : ReviewState α) (idx : Nat),
      idx < (if s.remaining.isEmpty then s.groups else s.remaining).length →
      (∃ x, (if s.remaining.isEmpty then s.groups else s.remaining).get? idx =
          some x ∧
        (pickRandom s idx).currentGroup = some x ∧
        (x :: (pickRandom s idx).remaining).Perm
          (if s.remaining.isEmpty then s.groups else s.remaining)) ∧
      (pickRandom s idx).remaining.length + 1 =
        (if s.remaining.isEmpty then s.groups else s.remaining).length ∧
      (pickRandom s idx).history = s.history ++ s.currentGroup.toList ∧
      (pickRandom s idx).groups = s.groups ∧
      (∀ c, s.currentGroup = some c →
        (pickPrev (pickRandom s idx)).currentGroup = some c ∧
        (pickPrev (pickRandom s idx)).history = s.history ∧
        ((pickPrev (pickRandom s idx)).remaining).Perm
          (if s.remaining.isEmpty then s.groups else s.remaining)) := by
  intro α s idx hidx
  set pool := if s.remaining.isEmpty then s.groups else s.remaining with hpool
  obtain ⟨x, hx⟩ : ∃ x, pool.get? idx = some x := by
    rw [List.get?_eq_get hidx]
    exact ⟨pool.get ⟨idx, hidx⟩, rfl⟩
  have hperm : (x :: pool.eraseIdx idx).Perm pool :=
    get_cons_eraseIdx_perm pool idx x hx
  have hcur : (pickRandom s idx).currentGroup = some x := by
    simp only [pickRandom, ← hpool, hx]
  have hrem : (pickRandom s idx).remaining = pool.eraseIdx idx := by
    simp only [pickRandom, ← hpool]
  have hhist : (pickRandom s idx).history = s.history ++ s.currentGroup.toList :=
    rfl
  refine ⟨⟨x, hx, hcur, by rw [hrem]; exact hperm⟩, ?_, hhist, rfl, ?_⟩
  · rw [hrem]
    have := hperm.length_eq
    simp only [List.length_cons] at this
    omega
  · intro c hc
    have hhist' : (pickRandom s idx).history = s.history ++ [c] := by
      rw [hhist, hc]
      rfl
    have hifs : ¬ ((s.history ++ [c]).isEmpty = true) := by
      cases s.history <;> simp
    constructor
    · simp only [pickPrev, hhist', List.getLast?_concat]
      rw [if_neg hifs]
    constructor
    · simp only [pickPrev, hhist', List.dropLast_concat]
      rw [if_neg hifs]
    · simp only [pickPrev, hhist', hrem, hcur]
      rw [if_neg hifs]
      show ((pool.eraseIdx idx) ++ (some x).toList).Perm pool
      have h2 : (some x).toList = [x] := rfl
      rw [h2]
      exact (List.perm_append_singleton x _).trans hperm

/-- Witness for C8 at a concrete state: pool `[20, 30]` with current item
`10`, drawing index `1` serves `30`, and backtracking restores `10`. -/
theorem c8_review_pool_drain_refill_backtrack_witness :
    (pickRandom (⟨[10, 20, 30], [20, 30], [], some 10⟩ : ReviewState Nat)
        1).currentGroup = some 30 ∧
    (pickPrev (pickRandom (⟨[10, 20, 30], [20, 30], [], some 10⟩ :
        ReviewState Nat) 1)).currentGroup = some 10 := by
  have h := c8_review_pool_drain_refill_backtrack Nat
    ⟨[10, 20, 30], [20, 30], [], some 10⟩ 1 (by decide)
  obtain ⟨⟨x, hx, hcur, _⟩, _, _, _, hprev⟩ := h
  have hx30 : x = 30 := by
    simp [List.get?] at hx
    omega
  exact ⟨hx30 ▸ hcur, (hprev 10 rfl).1⟩

/-! ### The identity normalizer -/

theorem mem_dropWhile_of_not {α : Type} (p : α → Bool) :
    ∀ (l : List α) (c : α), c ∈ l → p c = false → c ∈ l.dropWhile p := by
  intro l
  induction l with
  | nil => intro c hc _; simp at hc
  | cons a t ih =>
    intro c hc hp
    by_cases hpa : p a
    · rw [List.dropWhile_cons, if_pos hpa]
      rcases List.mem_cons.mp hc with rfl | hct
      · rw [hp] at hpa
        exact absurd hpa (by simp)
      · exact ih c hct hp
    · rw [List.dropWhile_cons, if_neg hpa]
      exact hc

theorem mem_jsTrimList {l : List Char} {c : Char} (hc : c ∈ l)
    (hp : jsIsWs c = false) : c ∈ jsTrimList l := by
  rw [jsTrimList]
  have h1 : c ∈ l.dropWhile jsIsWs := mem_dropWhile_of_not jsIsWs l c hc hp
  have h2 : c ∈ (l.dropWhile jsIsWs).reverse := List.mem_reverse.mpr h1
  have h3 : c ∈ ((l.dropWhile jsIsWs).reverse).dropWhile jsIsWs :=
    mem_dropWhile_of_not jsIsWs _ c h2 hp
  exact List.mem_reverse.mpr h3

theorem jsTrim_ne_empty_of_mem {s : String} {c : Char} (hc : c ∈ s.toList)
    (hp : jsIsWs c = false) : jsTrim s ≠ "" := by
  intro h
  have h1 : c ∈ jsTrimList s.toList := mem_jsTrimList hc hp
  have h2 : jsTrimList s.toList = [] := by
    have := congrArg String.toList h
    exact this
  rw [h2] at h1
  simp at h1

theorem jsTrimList_eq_self (l : List Char)
    (hhead : ∀ c, l.head? = some c → jsIsWs c = false)
    (hlast : ∀ c, l.reverse.head? = some c → jsIsWs c = false) :
    jsTrimList l = l := by
  rw [jsTrimList, dropWhile_eq_self_of_head _ _ hhead,
    dropWhile_eq_self_of_head _ _ hlast, List.reverse_reverse]

theorem append_sep_inj {sep : Char} :
    ∀ (l1 l2 r1 r2 : List Char), sep ∉ l1 → sep ∉ l2 →
      l1 ++ sep :: r1 = l2 ++ sep :: r2 → l1 = l2 ∧ r1 = r2 := by
  intro l1
  induction l1 with
  | nil =>
    intro l2 r1 r2 _ h2 heq
    cases l2 with
    | nil =>
      simp only [List.nil_append] at heq
      injection heq with _ h
      exact ⟨rfl, h⟩
    | cons b t2 =>
      simp only [List.nil_append, List.cons_append] at heq
      injection heq with hb _
      exact absurd (hb ▸ List.mem_cons_self b t2) h2
  | cons a t1 ih =>
    intro l2 r1 r2 h1 h2 heq
    cases l2 with
    | nil =>
      simp only [List.cons_append, List.nil_append] at heq
      injection heq with hb _
      exact absurd (hb ▸ List.mem_cons_self a t1) h1
    | cons b t2 =>
      simp only [List.cons_append] at heq
      injection heq with hb hrest
      have ht := ih t2 r1 r2 (fun hc => h1 (List.mem_cons_of_mem a hc))
        (fun hc => h2 (List.mem_cons_of_mem b hc)) hrest
      exact ⟨by rw [hb, ht.1], ht.2⟩

/-- C9 (counterexample): two records with distinct external identifiers and
none of the three metadata fields.  `ensureGroupId` gives both the group
key `"\x1f\x1f"` — the join of three empty segments, which `trim()` does
not erase because U+001F is not JavaScript whitespace — so the xid index
maps both to one shared bucket instead of the claimed fallback to the
records' own identifiers as singleton groups. -/
theorem c9_counterexample_empty_triad_shares_bucket :
    (ensureGroupId ⟨"x1", "", "", "", "", [], none⟩).group_id = "\x1f\x1f" ∧
    (ensureGroupId ⟨"x2", "", "", "", "", [], none⟩).group_id = "\x1f\x1f" ∧
    lookupA (buildGroupIdByXid
        [ensureGroupId ⟨"x1", "", "", "", "", [], none⟩,
         ensureGroupId ⟨"x2", "", "", "", "", [], none⟩]).1 "x1" =
      some "\x1f\x1f" ∧
    lookupA (buildGroupIdByXid
        [ensureGroupId ⟨"x1", "", "", "", "", [], none⟩,
         ensureGroupId ⟨"x2", "", "", "", "", [], none⟩]).1 "x2" =
      some "\x1f\x1f" ∧
    ("\x1f\x1f" : String) ≠ "x1" ∧ ("\x1f\x1f" : String) ≠ "x2" := by
  refine ⟨by decide, by decide, by decide, by decide, by decide, by decide⟩

theorem string_toList_join (x y z : String) :
    (x ++ "\x1f" ++ y ++ "\x1f" ++ z).toList =
      x.toList ++ '\x1f' :: (y.toList ++ '\x1f' :: z.toList) := by
  show (x ++ "\x1f" ++ y ++ "\x1f" ++ z).data =
    x.data ++ '\x1f' :: (y.data ++ '\x1f' :: z.data)
  rw [String.data_append, String.data_append, String.data_append,
    String.data_append]
  have hsep : ("\x1f" : String).data = ['\x1f'] := rfl
  rw [hsep]
  simp

theorem sep_mem_join (x y z : String) :
    '\x1f' ∈ (x ++ "\x1f" ++ y ++ "\x1f" ++ z).toList := by
  rw [string_toList_join]
  simp

theorem jsTrim_toList (s : String) : (jsTrim s).toList = jsTrimList s.toList :=
  rfl

theorem jsTrim_join_eq (x y z : String) :
    jsTrim (jsTrim x ++ "\x1f" ++ jsTrim y ++ "\x1f" ++ jsTrim z) =
      jsTrim x ++ "\x1f" ++ jsTrim y ++ "\x1f" ++ jsTrim z := by
  have hlist := string_toList_join (jsTrim x) (jsTrim y) (jsTrim z)
  have hhead : ∀ c,
      ((jsTrim x ++ "\x1f" ++ jsTrim y ++ "\x1f" ++ jsTrim z).toList).head? =
        some c → jsIsWs c = false := by
    intro c hc
    rw [hlist] at hc
    cases hx : (jsTrim x).toList with
    | nil =>
      rw [hx] at hc
      simp only [List.nil_append, List.head?_cons, Option.some.injEq] at hc
      rw [← hc]
      decide
    | cons c0 rest =>
      rw [hx] at hc
      simp only [List.cons_append, List.head?_cons, Option.some.injEq] at hc
      rw [← hc]
      exact jsTrimList_head x.toList c0 (by rw [← jsTrim_toList, hx]; rfl)
  have hlast : ∀ c,
      ((jsTrim x ++ "\x1f" ++ jsTrim y ++ "\x1f" ++ jsTrim z).toList).reverse.head? =
        some c → jsIsWs c = false := by
    intro c hc
    rw [hlist] at hc
    rw [List.reverse_append, List.reverse_cons, List.reverse_append,
      List.reverse_cons] at hc
    cases hz : (jsTrim z).toList.reverse with
    | nil =>
      rw [hz] at hc
      simp only [List.nil_append, List.append_assoc, List.cons_append,
        List.head?_cons, Option.some.injEq] at hc
      rw [← hc]
      decide
    | cons c0 rest =>
      rw [hz] at hc
      simp only [List.append_assoc, List.cons_append, List.head?_cons,
        Option.some.injEq] at hc
      rw [← hc]
      refine jsTrimList_reverse_head z.toList c0 ?_
      rw [← jsTrim_toList, hz]
      rfl
  show String.mk (jsTrimList
    (jsTrim x ++ "\x1f" ++ jsTrim y ++ "\x1f" ++ jsTrim z).toList) = _
  rw [jsTrimList_eq_self _ hhead hlast]
  rfl

theorem ensureGroupId_unset (f : Feature) (h : f.group_id = "") :
    (ensureGroupId f).group_id =
      jsTrim (jsTrim f.description ++ "\x1f" ++ jsTrim f.author ++ "\x1f" ++
        jsTrim f.date_label) ∧
    (ensureGroupId f).group_id ≠ "" := by
  have hkeyne : jsTrim (jsTrim f.description ++ "\x1f" ++ jsTrim f.author ++
      "\x1f" ++ jsTrim f.date_label) ≠ "" :=
    jsTrim_ne_empty_of_mem (sep_mem_join _ _ _) (by decide)
  have hres : ensureGroupId f =
      { f with group_id := jsTrim (jsTrim f.description ++ "\x1f" ++
          jsTrim f.author ++ "\x1f" ++ jsTrim f.date_label) } := by
    simp only [ensureGroupId, normalizeGroupValue, h]
    rw [if_neg (by simp), if_pos hkeyne]
  rw [hres]
  exact ⟨rfl, hkeyne⟩

/-- C9 (amended): the identity normalizer is deterministic — identical
trimmed description/author/date triads yield an identical non-empty group
key — and injective with respect to the three fields as long as the
separator U+001F does not occur in them; but a record lacking all three
fields does NOT fall back to its external identifier: `ensureGroupId`
assigns it the constant key `"\x1f\x1f"` (the join of three empty segments,
which `trim()` does not remove), so all such records share one bucket.  The
fallback to the record's own identifier happens only in
`buildGroupIdByXid`, for records whose `group_id` was never assigned at
all. -/
theorem c9_group_key_determinism_injectivity_and_empty_bucket :
    (∀ f g : Feature, f.group_id = "" → g.group_id = "" →
      jsTrim f.description = jsTrim g.description →
      jsTrim f.author = jsTrim g.author →
      jsTrim f.date_label = jsTrim g.date_label →
      (ensureGroupId f).group_id = (ensureGroupId g).group_id ∧
      (ensureGroupId f).group_id ≠ "") ∧
    (∀ f g : Feature, f.group_id = "" → g.group_id = "" →
      '\x1f' ∉ (jsTrim f.description).toList →
      '\x1f' ∉ (jsTrim f.author).toList →
      '\x1f' ∉ (jsTrim g.description).toList →
      '\x1f' ∉ (jsTrim g.author).toList →
      (ensureGroupId f).group_id = (ensureGroupId g).group_id →
      jsTrim f.description = jsTrim g.description ∧
      jsTrim f.author = jsTrim g.author ∧
      jsTrim f.date_label = jsTrim g.date_label) ∧
    (∀ f : Feature, f.group_id = "" →
      jsTrim f.description = "" → jsTrim f.author = "" →
      jsTrim f.date_label = "" →
      (ensureGroupId f).group_id = "\x1f\x1f") ∧
    (∀ f : Feature, jsTrim f.group_id = "" → jsTrim f.id ≠ "" →
      lookupA (buildGroupIdByXid [f]).1 (jsTrim f.id) = some (jsTrim f.id)) := by
  refine ⟨?_, ?_, ?_, ?_⟩
  · intro f g hf hg hd ha ht
    obtain ⟨hfk, hfne⟩ := ensureGroupId_unset f hf
    obtain ⟨hgk, hgne⟩ := ensureGroupId_unset g hg
    rw [hfk, hgk, hd, ha, ht]
    rw [← hgk]
    exact ⟨rfl, hgne⟩
  · intro f g hf hg hfd hfa hgd hga heq
    obtain ⟨hfk, _⟩ := ensureGroupId_unset f hf
    obtain ⟨hgk, _⟩ := ensureGroupId_unset g hg
    rw [hfk, hgk, jsTrim_join_eq, jsTrim_join_eq] at heq
    have hlists := congrArg String.toList heq
    rw [string_toList_join, string_toList_join] at hlists
    obtain ⟨h1, h2⟩ := append_sep_inj _ _ _ _ hfd hgd hlists
    obtain ⟨h3, h4⟩ := append_sep_inj _ _ _ _ hfa hga h2
    refine ⟨?_, ?_, ?_⟩
    · exact String.ext h1
    · exact String.ext h3
    · exact String.ext h4
  · intro f hf hd ha ht
    obtain ⟨hfk, _⟩ := ensureGroupId_unset f hf
    rw [hfk, hd, ha, ht]
    decide
  · intro f hgid hid
    simp [buildGroupIdByXid, normalizeId, jsOrS, hgid, hid, insertA, lookupA]

/-- Witness for C9 (amended): two records with identical nonempty triads
share one nonempty key; records with all-empty triads get `"\x1f\x1f"`; a
record with no group id at all falls back to its own identifier in the xid
index. -/
theorem c9_group_key_determinism_injectivity_and_empty_bucket_witness :
    ((ensureGroupId ⟨"x1", "", "d", "a", "t", [], none⟩).group_id =
        (ensureGroupId ⟨"x2", "", "d", "a", "t", [], none⟩).group_id ∧
      (ensureGroupId ⟨"x1", "", "d", "a", "t", [], none⟩).group_id ≠ "") ∧
    (ensureGroupId ⟨"x1", "", "", "", "", [], none⟩).group_id = "\x1f\x1f" ∧
    lookupA (buildGroupIdByXid [⟨"x9", "", "", "", "", [], none⟩]).1
        (jsTrim "x9") = some (jsTrim "x9") := by
  refine ⟨?_, ?_, ?_⟩
  · exact c9_group_key_determinism_injectivity_and_empty_bucket.1
      ⟨"x1", "", "d", "a", "t", [], none⟩ ⟨"x2", "", "d", "a", "t", [], none⟩
      rfl rfl rfl rfl rfl
  · exact c9_group_key_determinism_injectivity_and_empty_bucket.2.2.1
      ⟨"x1", "", "", "", "", [], none⟩ rfl (by decide) (by decide) (by decide)
  · exact c9_group_key_determinism_injectivity_and_empty_bucket.2.2.2
      ⟨"x9", "", "", "", "", [], none⟩ (by decide) (by decide)
